import Mathlib

/-!
Verification of the SameGame board engine (`src/board.rs`).

The `Board` structure and its operations below are a shallow embedding of the
Rust source: cells are a flat buffer in column-major order (each column stored
contiguously, offset `0` being the end gravity packs towards), and the
recursive flood fills of `calc_component` / `erase_component` are embedded as
fuel-indexed mutual recursions (the fuel `w*h + 1` dominates the recursion
depth of the source, which is bounded by the cell count).
-/

/-- Number of cell kinds: `const CELL_NB: u8 = 6` (colors are `1..=5`, `0` is empty). -/
def CELL_NB : Nat := 6

/-- Flat index of cell `(x, y)`: `Self::xy2idx_h(h, x, y) = h * x + (h - 1 - y)`. -/
def xy2idx_h (h x y : Nat) : Nat := h * x + (h - 1 - y)

/-- The board: dimensions plus the flat cell buffer (`struct Board`). -/
structure Board where
  w : Nat
  h : Nat
  cells : List Nat
  deriving Repr, DecidableEq

/-- Well-formedness: positive dimensions and the buffer has exactly `w*h` cells.
All boards produced by `random` or `parse` satisfy this, and every operation
preserves it. -/
def WF (b : Board) : Prop := 0 < b.w ∧ 0 < b.h ∧ b.cells.length = b.w * b.h

instance (b : Board) : Decidable (WF b) := by unfold WF; infer_instance

/-- `fn xy2idx(&self, x, y)`. -/
def Board.xy2idx (b : Board) (x y : Nat) : Nat := xy2idx_h b.h x y

/-- `pub fn width(&self)`. -/
def Board.width (b : Board) : Nat := b.w

/-- `pub fn height(&self)`. -/
def Board.height (b : Board) : Nat := b.h

/-- `pub fn at(&self, x, y)` (in-bounds reads of the buffer; named `cellAt`
because `at` is a reserved word in Lean). -/
def Board.cellAt (b : Board) (x y : Nat) : Nat := b.cells.getD (xy2idx_h b.h x y) 0

/-- `fn neighbor(&self, x, y)`: the in-bounds orthogonal neighbors, in the
source's push order. -/
def neighborL (w h x y : Nat) : List (Nat × Nat) :=
  (if 0 < x then [(x - 1, y)] else []) ++
  (if x < w - 1 then [(x + 1, y)] else []) ++
  (if 0 < y then [(x, y - 1)] else []) ++
  (if y < h - 1 then [(x, y + 1)] else [])

/-- `fn neighbor` on a board. -/
def Board.neighbor (b : Board) (x y : Nat) : List (Nat × Nat) := neighborL b.w b.h x y

/-! ### Parsing (`pub fn parse`) -/

/-- Error outcomes of `parse`.  The first three correspond to the
`anyhow` errors of the source (`format error` / `invalid char` /
`incomplete input`); `oob` models the out-of-bounds panic of `cells[i] = …`
when a data line is longer than the declared width. -/
inductive PErr where
  | fmt
  | invalidChar
  | incomplete
  | oob
  deriving Repr, DecidableEq

/-- Split a line into maximal whitespace-free tokens
(`str::split_ascii_whitespace`). -/
def splitWsAux : List Char → List Char → List (List Char)
  | [], acc => if acc.isEmpty then [] else [acc.reverse]
  | c :: cs, acc =>
    if c.isWhitespace then
      (if acc.isEmpty then splitWsAux cs [] else acc.reverse :: splitWsAux cs [])
    else splitWsAux cs (c :: acc)

/-- Tokens of a line. -/
def splitWs (cs : List Char) : List (List Char) := splitWsAux cs []

/-- Digit value of a character. -/
def charDigit (c : Char) : Nat := c.toNat - '0'.toNat

/-- `str::parse::<usize>` on a token (restricted to plain digit strings,
which is all the claims exercise). -/
def parseNatTok (cs : List Char) : Option Nat :=
  if cs.isEmpty then none
  else if cs.all (·.isDigit) then some (cs.foldl (fun n c => 10 * n + charDigit c) 0)
  else none

/-- Header parsing: two whitespace-separated integers, nothing else
(`let (w, h) = { … }` in `parse`). -/
def parseHeader (line : String) : Except PErr (Nat × Nat) :=
  match splitWs line.toList with
  | [a, b] =>
    match parseNatTok a, parseNatTok b with
    | some w, some h => .ok (w, h)
    | _, _ => .error .fmt
  | _ => .error .fmt

/-- The inner character loop of a data row: `for (x, c) in line.chars().enumerate()`.
Each character is range-checked (`ensure!(('0'..='5').contains(&c))`) and then
written at `xy2idx_h h x y`; an index past the buffer end is the panic of
`cells[i] = …`, modelled as the `oob` error. -/
def writeChars (h r : Nat) : Nat → List Char → List Nat → Except PErr (List Nat)
  | _, [], cells => .ok cells
  | x, c :: cs, cells =>
    if '0' ≤ c ∧ c ≤ '5' then
      if xy2idx_h h x r < cells.length then
        writeChars h r (x + 1) cs (cells.set (xy2idx_h h x r) (charDigit c))
      else .error .oob
    else .error .invalidChar

/-- The row loop of `parse`: `for y in 0..h { let line = lines.next()…; … }`. -/
def parseRows (h : Nat) : Nat → Nat → List String → List Nat → Except PErr (List Nat)
  | 0, _, _, cells => .ok cells
  | n + 1, r, lines, cells =>
    match lines with
    | [] => .error .incomplete
    | l :: rest => do
      let cells' ← writeChars h r 0 l.toList cells
      parseRows h n (r + 1) rest cells'

/-- `pub fn parse`: the input is modelled as its list of lines (the first line
is the header read by `read_line`, the rest is the `lines()` iterator). -/
def parse (input : List String) : Except PErr Board := do
  let wh ← parseHeader (input.headD "")
  if 0 < wh.1 then
    if 0 < wh.2 then
      let cells ← parseRows wh.2 wh.2 0 (input.drop 1) (List.replicate (wh.1 * wh.2) 0)
      pure ⟨wh.1, wh.2, cells⟩
    else .error .fmt
  else .error .fmt

/-! ### Random construction (`pub fn random`) -/

/-- A draw of `rand::distributions::Uniform::new(lo, hi)`: whatever the
underlying random value `v`, the sample lies in `[lo, hi)`. -/
def uniformSample (lo hi v : Nat) : Nat := lo + v % (hi - lo)

/-- `pub fn random(w, h)`, with the thread-local RNG abstracted as a stream
`g` of raw draws (`iter::repeat_with(|| dist.sample(&mut rng)).take(w*h)`). -/
def Board.random (w h : Nat) (g : Nat → Nat) : Board :=
  { w := w, h := h, cells := (List.range (w * h)).map fun i => uniformSample 1 CELL_NB (g i) }

/-! ### Component discovery and erasure (the two recursive flood fills) -/

/-- `fn rec` inside `calc_component`: push the cell, mark it done, then walk
the neighbors (`for (xx, yy) in this.neighbor(x, y)`), skipping visited cells
and color mismatches.  `fuel` bounds the recursion depth (the source's depth
is bounded by the cell count, so `calc_component` runs this with fuel
`w*h + 1`, which is never exhausted). -/
def compGo (b : Board) : Nat → Nat → Nat → List (Nat × Nat) × List Bool → List (Nat × Nat) × List Bool
  | 0, _, _, st => st
  | fuel + 1, x, y, st =>
    (neighborL b.w b.h x y).foldl
      (fun st' p =>
        if st'.2.getD (xy2idx_h b.h p.1 p.2) false = true then st'
        else if b.cellAt x y = b.cellAt p.1 p.2 then compGo b fuel p.1 p.2 st'
        else st')
      (st.1 ++ [(x, y)], st.2.set (xy2idx_h b.h x y) true)

/-- The loop body of `compGo`, named so lemmas can speak about the fold. -/
def compStep (b : Board) (fuel x y : Nat) :
    List (Nat × Nat) × List Bool → Nat × Nat → List (Nat × Nat) × List Bool :=
  fun st' p =>
    if st'.2.getD (xy2idx_h b.h p.1 p.2) false = true then st'
    else if b.cellAt x y = b.cellAt p.1 p.2 then compGo b fuel p.1 p.2 st'
    else st'

/-- `pub fn calc_component(&self, x, y)`. -/
def Board.calc_component (b : Board) (x y : Nat) : List (Nat × Nat) :=
  if b.cellAt x y = 0 then []
  else
    let res := (compGo b (b.w * b.h + 1) x y ([], List.replicate (b.w * b.h) false)).1
    if res.length = 1 then [] else res

/-- `pub fn is_finished(&self)`: scan all cells; a nonzero cell with an equal
left or lower neighbor means not finished. -/
def Board.is_finished (b : Board) : Bool :=
  (List.range b.w).all fun x => (List.range b.h).all fun y =>
    if b.cellAt x y = 0 then true
    else if 0 < x ∧ b.cellAt x y = b.cellAt (x - 1) y then false
    else if 0 < y ∧ b.cellAt x y = b.cellAt x (y - 1) then false
    else true

/-- `fn rec` inside `erase_component`: the visited cell is overwritten with
`0` (`let color = this.replace(x, y, 0)`), and the neighbor loop
(`if this.at(xx, yy) != color { continue; } res += rec(…)`) follows neighbors
still holding the original color. -/
def eraseGo (w h : Nat) : Nat → Nat → Nat → List Nat → List Nat × Nat
  | 0, _, _, cells => (cells, 0)
  | fuel + 1, x, y, cells =>
    (neighborL w h x y).foldl
      (fun st p =>
        if st.1.getD (xy2idx_h h p.1 p.2) 0 = cells.getD (xy2idx_h h x y) 0 then
          ((eraseGo w h fuel p.1 p.2 st.1).1, st.2 + (eraseGo w h fuel p.1 p.2 st.1).2)
        else st)
      (cells.set (xy2idx_h h x y) 0, 1)

/-- The loop body of `eraseGo`, named so lemmas can speak about the fold. -/
def eraseStep (w h fuel color : Nat) : List Nat × Nat → Nat × Nat → List Nat × Nat :=
  fun st p =>
    if st.1.getD (xy2idx_h h p.1 p.2) 0 = color then
      ((eraseGo w h fuel p.1 p.2 st.1).1, st.2 + (eraseGo w h fuel p.1 p.2 st.1).2)
    else st

/-- The destructive traversal stage of `erase_component`
(`let res = rec(self, x, y)`). -/
def Board.eraseRaw (b : Board) (x y : Nat) : List Nat × Nat :=
  eraseGo b.w b.h (b.w * b.h + 1) x y b.cells

/-- Exchange positions `i` and `j` of a list (`slice::swap`; the source only
calls it in bounds). -/
def listSwap (l : List Nat) (i j : Nat) : List Nat :=
  match l.get? i, l.get? j with
  | some a, some b => (l.set i b).set j a
  | _, _ => l

/-- One iteration of the `stable_partition` loop of `pack_cellwise`:
`if col[j] != 0 { col.swap(i, j); i += 1 }`. -/
def packStep : Nat × List Nat → Nat → Nat × List Nat :=
  fun st j => if st.2.getD j 0 ≠ 0 then (st.1 + 1, listSwap st.2 st.1 j) else st

/-- The `stable_partition` loop of `pack_cellwise` on one column chunk:
`let mut i = 0; for j in 0..h { if col[j] != 0 { col.swap(i, j); i += 1 } }`. -/
def packChunk (h : Nat) (col : List Nat) : List Nat :=
  ((List.range h).foldl packStep (0, col)).2

/-- Split the flat buffer into its `w` column chunks of height `h`
(`cells.chunks_exact_mut(self.h)`). -/
def chunksN : Nat → Nat → List Nat → List (List Nat)
  | 0, _, _ => []
  | w + 1, h, cells => cells.take h :: chunksN w h (cells.drop h)

/-- The column chunks of a board. -/
def Board.colsOf (b : Board) : List (List Nat) := chunksN b.w b.h b.cells

/-- `fn pack_cellwise(&mut self)`: gravity within each column chunk. -/
def Board.pack_cellwise (b : Board) : Board :=
  { b with cells := ((b.colsOf).map (packChunk b.h)).flatten }

/-- One iteration of the `pack_colwise` loop: skip an empty source column,
otherwise move it to the write cursor (zero-filling the source) and advance
the cursor. -/
def colStep (h : Nat) : Nat × List (List Nat) → Nat → Nat × List (List Nat) :=
  fun st x =>
    let col := st.2.getD x []
    if col.all (· = 0) then st
    else
      (st.1 + 1,
        if st.1 ≠ x then (st.2.set st.1 col).set x (List.replicate h 0) else st.2)

/-- `fn pack_colwise(&mut self)`: shift non-empty columns left over empty
ones, keeping a write cursor `x_target`. -/
def Board.pack_colwise (b : Board) : Board :=
  { b with cells := (((List.range b.w).foldl (colStep b.h) (0, b.colsOf)).2).flatten }

/-- `pub fn erase_component(&mut self, x, y)`: returns the mutated board and
the removed count. -/
def Board.erase_component (b : Board) (x y : Nat) : Board × Nat :=
  let color := b.cellAt x y
  if color = 0 then (b, 0)
  else
    let r := b.eraseRaw x y
    if r.2 = 1 then ({ b with cells := r.1.set (xy2idx_h b.h x y) color }, 0)
    else (Board.pack_colwise (Board.pack_cellwise { b with cells := r.1 }), r.2)

/-! ### Derived notions used to state the claims -/

/-- One step between same-colored orthogonally adjacent nonzero in-bounds cells. -/
def adjSame (b : Board) (p q : Nat × Nat) : Prop :=
  p.1 < b.w ∧ p.2 < b.h ∧ q.1 < b.w ∧ q.2 < b.h ∧
    q ∈ b.neighbor p.1 p.2 ∧ b.cellAt p.1 p.2 ≠ 0 ∧ b.cellAt p.1 p.2 = b.cellAt q.1 q.2

/-- The maximal same-colored orthogonally-connected group containing `p`. -/
def component (b : Board) (p : Nat × Nat) : Set (Nat × Nat) :=
  { q | Relation.ReflTransGen (adjSame b) p q }

/-- Orthogonal adjacency of two grid coordinates. -/
def adjacentP (p q : Nat × Nat) : Prop :=
  (p.1 = q.1 ∧ (p.2 + 1 = q.2 ∨ q.2 + 1 = p.2)) ∨
  (p.2 = q.2 ∧ (p.1 + 1 = q.1 ∨ q.1 + 1 = p.1))

/-- Number of nonzero (non-empty) cells of a buffer. -/
def countNZ (l : List Nat) : Nat := l.countP (· ≠ 0)

/-- Column `x` of the board is entirely empty. -/
def allZeroCol (b : Board) (x : Nat) : Prop := ∀ y, y < b.h → b.cellAt x y = 0

/-- A run of erases, each of which is in bounds and removes at least one cell. -/
def SuccessRun : Board → List (Nat × Nat) → Prop
  | _, [] => True
  | b, p :: ps =>
    p.1 < b.w ∧ p.2 < b.h ∧ 0 < (b.erase_component p.1 p.2).2 ∧
      SuccessRun (b.erase_component p.1 p.2).1 ps

/-- Correspondence between the visited-marks buffer of `calc_component` and
the destructively zeroed buffer of `erase_component`: a marked cell is zeroed,
an unmarked cell still holds its original color. -/
def InSync (b : Board) (done : List Bool) (cc : List Nat) : Prop :=
  done.length = b.w * b.h ∧ cc.length = b.w * b.h ∧
  ∀ i, i < b.w * b.h →
    (done.getD i false = true → cc.getD i 0 = 0) ∧
    (done.getD i false = false → cc.getD i 0 = b.cells.getD i 0)

/-- The stably packed form of one column: nonzero cells first (in order),
then zeros. -/
def packedCol (c : List Nat) : List Nat :=
  c.filter (· ≠ 0) ++ List.replicate (c.length - (c.filter (· ≠ 0)).length) 0

deriving instance DecidableEq for Except

/-! ### Generic list facts -/

theorem getD_set_self_nat {A : Type} (l : List A) (i : Nat) (v d : A) (h : i < l.length) :
    (l.set i v).getD i d = v := by
  rw [List.getD_eq_getElem _ _ (by simpa using h)]
  simp [List.getElem_set_self]

theorem getD_set_ne_nat {A : Type} (l : List A) (i j : Nat) (v d : A) (h : i ≠ j) :
    (l.set i v).getD j d = l.getD j d := by
  rcases Nat.lt_or_ge j l.length with hj | hj
  · rw [List.getD_eq_getElem _ _ (by simpa using hj), List.getD_eq_getElem _ _ hj]
    exact List.getElem_set_ne h _
  · rw [List.getD_eq_default _ _ (by simpa using hj), List.getD_eq_default _ _ hj]

theorem set_getD_self (l : List Nat) (i v : Nat) (h : i < l.length)
    (hv : l.getD i 0 = v) : l.set i v = l := by
  induction l generalizing i with
  | nil => simp at h
  | cons a t ih =>
    cases i with
    | zero =>
      simp only [List.getD_cons_zero] at hv
      simp [hv]
    | succ n =>
      simp only [List.getD_cons_succ] at hv
      simp only [List.length_cons, Nat.succ_lt_succ_iff] at h
      simp [List.set, ih n h hv]
theorem countNZ_set_zero (l : List Nat) (i : Nat) (h : i < l.length)
    (hnz : l.getD i 0 ≠ 0) : countNZ (l.set i 0) + 1 = countNZ l := by
  induction l generalizing i with
  | nil => simp at h
  | cons a t ih =>
    cases i with
    | zero =>
      simp only [List.getD_cons_zero] at hnz
      simp [countNZ, List.set, List.countP_cons, hnz]
    | succ n =>
      simp only [List.getD_cons_succ] at hnz
      simp only [List.length_cons, Nat.succ_lt_succ_iff] at h
      have := ih n h hnz
      simp only [countNZ, List.set, List.countP_cons] at *
      omega

theorem all_zero_eq_replicate (l : List Nat) (n : Nat) (hlen : l.length = n)
    (hz : l.all (· = 0) = true) : l = List.replicate n 0 := by
  subst hlen
  rw [List.eq_replicate_length]
  intro b hb
  simpa using List.all_eq_true.mp hz b hb

/-! ### Index arithmetic -/

theorem xy2idx_lt {w h x y : Nat} (hx : x < w) (hy : y < h) : xy2idx_h h x y < w * h := by
  unfold xy2idx_h
  have h1 : h - 1 - y < h := by omega
  have h2 : h * x + h ≤ h * w := by
    calc h * x + h = h * (x + 1) := by ring
    _ ≤ h * w := Nat.mul_le_mul_left h hx
  have h3 : h * w = w * h := Nat.mul_comm h w
  omega

theorem xy2idx_inj {w h x1 y1 x2 y2 : Nat} (hy1 : y1 < h)
    (hx2 : x2 < w) (hy2 : y2 < h) (heq : xy2idx_h h x1 y1 = xy2idx_h h x2 y2) :
    x1 = x2 ∧ y1 = y2 := by
  unfold xy2idx_h at heq
  have e1 : h - 1 - y1 < h := by omega
  have e2 : h - 1 - y2 < h := by omega
  have hx : x1 = x2 := by
    have d1 : (h * x1 + (h - 1 - y1)) / h = x1 := by
      rw [Nat.mul_add_div (by omega)]
      simp [Nat.div_eq_of_lt e1]
    have d2 : (h * x2 + (h - 1 - y2)) / h = x2 := by
      rw [Nat.mul_add_div (by omega)]
      simp [Nat.div_eq_of_lt e2]
    rw [← d1, ← d2, heq]
  refine ⟨hx, ?_⟩
  subst hx
  omega

theorem mem_ite_singleton {c : Prop} [Decidable c] {p a : Nat × Nat} :
    (p ∈ if c then [a] else []) ↔ c ∧ p = a := by
  split <;> simp_all

theorem mem_neighborL {w h x y : Nat} {p : Nat × Nat} :
    p ∈ neighborL w h x y ↔
      (0 < x ∧ p = (x - 1, y)) ∨ (x < w - 1 ∧ p = (x + 1, y)) ∨
      (0 < y ∧ p = (x, y - 1)) ∨ (y < h - 1 ∧ p = (x, y + 1)) := by
  unfold neighborL
  simp only [List.mem_append, mem_ite_singleton]
  tauto

theorem neighbor_mem_bounds {w h x y : Nat} {p : Nat × Nat} (hx : x < w) (hy : y < h)
    (hp : p ∈ neighborL w h x y) : p.1 < w ∧ p.2 < h := by
  rcases mem_neighborL.mp hp with ⟨hc, rfl⟩ | ⟨hc, rfl⟩ | ⟨hc, rfl⟩ | ⟨hc, rfl⟩ <;>
    exact ⟨by simp; omega, by simp; omega⟩

theorem neighbor_ne {w h x y : Nat} {p : Nat × Nat}
    (hp : p ∈ neighborL w h x y) : p ≠ (x, y) := by
  rcases mem_neighborL.mp hp with ⟨hc, rfl⟩ | ⟨hc, rfl⟩ | ⟨hc, rfl⟩ | ⟨hc, rfl⟩ <;>
    simp <;> omega


/-! ### Properties of the destructive traversal (`eraseGo`) -/

theorem foldl_inv {α β : Type} (f : β → α → β) (P : α → Prop) (Q : β → Prop)
    (hstep : ∀ st a, P a → Q st → Q (f st a)) :
    ∀ (ns : List α) (st : β), (∀ a ∈ ns, P a) → Q st → Q (ns.foldl f st) := by
  intro ns
  induction ns with
  | nil => intro st _ hq; simpa using hq
  | cons a as ih =>
    intro st hP hq
    rw [List.foldl_cons]
    exact ih _ (fun b hb => hP b (List.mem_cons_of_mem _ hb))
      (hstep st a (hP a (List.mem_cons_self _ _)) hq)

theorem eraseGo_succ (w h fuel x y : Nat) (cells : List Nat) :
    eraseGo w h (fuel + 1) x y cells =
      (neighborL w h x y).foldl
        (eraseStep w h fuel (cells.getD (xy2idx_h h x y) 0))
        (cells.set (xy2idx_h h x y) 0, 1) := rfl

theorem eraseGo_len (w h : Nat) :
    ∀ fuel x y cells, ((eraseGo w h fuel x y cells).1).length = cells.length := by
  intro fuel
  induction fuel with
  | zero => intro x y cells; rfl
  | succ f ih =>
    intro x y cells
    rw [eraseGo_succ]
    refine foldl_inv (eraseStep w h f (cells.getD (xy2idx_h h x y) 0)) (fun _ => True)
      (fun st => st.1.length = cells.length) ?_ _ _ (fun _ _ => trivial) (by simp)
    intro st p _ hq
    simp only [eraseStep]
    split
    · simpa [ih] using hq
    · exact hq

theorem eraseFold_mono (w h fuel color : Nat) (ns : List (Nat × Nat)) (st : List Nat × Nat) :
    st.2 ≤ (ns.foldl (eraseStep w h fuel color) st).2 :=
  foldl_inv _ (fun _ => True) (fun st' => st.2 ≤ st'.2)
    (fun st' p _ hq => by
      simp only [eraseStep]
      split
      · exact Nat.le_trans hq (Nat.le_add_right _ _)
      · exact hq)
    ns st (fun _ _ => trivial) (Nat.le_refl _)

theorem eraseGo_pos (w h f x y : Nat) (cells : List Nat) :
    1 ≤ (eraseGo w h (f + 1) x y cells).2 := by
  rw [eraseGo_succ]
  exact eraseFold_mono w h f _ _ (cells.set (xy2idx_h h x y) 0, 1)

theorem eraseFold_noop (w h fuel color : Nat) :
    ∀ (ns : List (Nat × Nat)) (st : List Nat × Nat),
      (∀ p ∈ ns, st.1.getD (xy2idx_h h p.1 p.2) 0 ≠ color) →
      ns.foldl (eraseStep w h fuel color) st = st := by
  intro ns
  induction ns with
  | nil => intro st _; rfl
  | cons p ps ih =>
    intro st hne
    rw [List.foldl_cons]
    have hstep : eraseStep w h fuel color st p = st := by
      simp only [eraseStep]
      rw [if_neg (hne p (List.mem_cons_self _ _))]
    rw [hstep]
    exact ih st (fun q hq => hne q (List.mem_cons_of_mem _ hq))

theorem eraseFold_hit (w h f color : Nat) :
    ∀ (ns : List (Nat × Nat)) (cc : List Nat) (n : Nat),
      (∃ p ∈ ns, cc.getD (xy2idx_h h p.1 p.2) 0 = color) →
      n + 1 ≤ (ns.foldl (eraseStep w h (f + 1) color) (cc, n)).2 := by
  intro ns
  induction ns with
  | nil => intro cc n h1; simp at h1
  | cons q ps ih =>
    intro cc n hex
    rw [List.foldl_cons]
    by_cases hg : cc.getD (xy2idx_h h q.1 q.2) 0 = color
    · have hstep : eraseStep w h (f + 1) color (cc, n) q =
          ((eraseGo w h (f + 1) q.1 q.2 cc).1, n + (eraseGo w h (f + 1) q.1 q.2 cc).2) := by
        simp only [eraseStep]
        rw [if_pos hg]
      rw [hstep]
      have h1 : 1 ≤ (eraseGo w h (f + 1) q.1 q.2 cc).2 := eraseGo_pos w h f q.1 q.2 cc
      have h2 := eraseFold_mono w h (f + 1) color ps
        ((eraseGo w h (f + 1) q.1 q.2 cc).1, n + (eraseGo w h (f + 1) q.1 q.2 cc).2)
      simp only at h2
      omega
    · have hstep : eraseStep w h (f + 1) color (cc, n) q = (cc, n) := by
        simp only [eraseStep]
        rw [if_neg hg]
      rw [hstep]
      rcases hex with ⟨p, hp, hcol⟩
      rcases List.mem_cons.mp hp with rfl | hp'
      · exact absurd hcol hg
      · exact ih cc n ⟨p, hp', hcol⟩

theorem eraseFold_eq_of_fix (w h f color : Nat) :
    ∀ (ns : List (Nat × Nat)) (cc : List Nat) (n : Nat),
      (ns.foldl (eraseStep w h (f + 1) color) (cc, n)).2 = n →
      ns.foldl (eraseStep w h (f + 1) color) (cc, n) = (cc, n) := by
  intro ns
  induction ns with
  | nil => intro cc n _; rfl
  | cons q ps ih =>
    intro cc n hfix
    rw [List.foldl_cons] at hfix ⊢
    by_cases hg : cc.getD (xy2idx_h h q.1 q.2) 0 = color
    · exfalso
      have hstep : eraseStep w h (f + 1) color (cc, n) q =
          ((eraseGo w h (f + 1) q.1 q.2 cc).1, n + (eraseGo w h (f + 1) q.1 q.2 cc).2) := by
        simp only [eraseStep]
        rw [if_pos hg]
      rw [hstep] at hfix
      have h1 : 1 ≤ (eraseGo w h (f + 1) q.1 q.2 cc).2 := eraseGo_pos w h f q.1 q.2 cc
      have h2 := eraseFold_mono w h (f + 1) color ps
        ((eraseGo w h (f + 1) q.1 q.2 cc).1, n + (eraseGo w h (f + 1) q.1 q.2 cc).2)
      simp only at h2
      omega
    · have hstep : eraseStep w h (f + 1) color (cc, n) q = (cc, n) := by
        simp only [eraseStep]
        rw [if_neg hg]
      rw [hstep] at hfix ⊢
      exact ih cc n hfix

theorem eraseGo_countNZ (w h : Nat) :
    ∀ fuel x y cells, x < w → y < h → cells.length = w * h →
      cells.getD (xy2idx_h h x y) 0 ≠ 0 →
      countNZ (eraseGo w h fuel x y cells).1 + (eraseGo w h fuel x y cells).2 = countNZ cells := by
  intro fuel
  induction fuel with
  | zero => intro x y cells _ _ _ _; simp [eraseGo]
  | succ f ih =>
    intro x y cells hx hy hlen hnz
    rw [eraseGo_succ]
    have hidx : xy2idx_h h x y < cells.length := hlen ▸ xy2idx_lt hx hy
    have init : countNZ (cells.set (xy2idx_h h x y) 0) + 1 = countNZ cells :=
      countNZ_set_zero cells _ hidx hnz
    have main := foldl_inv (eraseStep w h f (cells.getD (xy2idx_h h x y) 0))
      (fun p => p.1 < w ∧ p.2 < h)
      (fun st => countNZ st.1 + st.2 = countNZ cells ∧ st.1.length = w * h)
      (fun st p hp hq => by
        simp only [eraseStep]
        split
        case isTrue hg =>
          have hr := ih p.1 p.2 st.1 hp.1 hp.2 hq.2 (by rw [hg]; exact hnz)
          have hl := eraseGo_len w h f p.1 p.2 st.1
          refine ⟨by simp only; omega, by simp only; omega⟩
        case isFalse => exact hq)
      (neighborL w h x y) (cells.set (xy2idx_h h x y) 0, 1)
      (fun p hp => neighbor_mem_bounds hx hy hp)
      ⟨by simpa using init, by simpa using hlen⟩
    exact main.1

/-! ### The simulation between `calc_component` and `erase_component` -/

theorem compGo_succ (b : Board) (fuel x y : Nat) (st : List (Nat × Nat) × List Bool) :
    compGo b (fuel + 1) x y st =
      (neighborL b.w b.h x y).foldl (compStep b fuel x y)
        (st.1 ++ [(x, y)], st.2.set (xy2idx_h b.h x y) true) := rfl

theorem insync_set (b : Board) (done : List Bool) (cc : List Nat) (x y : Nat)
    (hx : x < b.w) (hy : y < b.h) (hs : InSync b done cc) :
    InSync b (done.set (xy2idx_h b.h x y) true) (cc.set (xy2idx_h b.h x y) 0) := by
  obtain ⟨hd, hc, hptr⟩ := hs
  have hidx : xy2idx_h b.h x y < b.w * b.h := xy2idx_lt hx hy
  refine ⟨by simpa using hd, by simpa using hc, ?_⟩
  intro i hi
  by_cases hii : xy2idx_h b.h x y = i
  · subst hii
    constructor
    · intro _
      exact getD_set_self_nat cc _ 0 0 (hc ▸ hidx)
    · intro hfalse
      rw [getD_set_self_nat done _ true false (hd ▸ hidx)] at hfalse
      simp at hfalse
  · rw [getD_set_ne_nat done _ i true false hii, getD_set_ne_nat cc _ i 0 0 hii]
    exact hptr i hi

theorem simGo (b : Board) :
    ∀ fuel x y (v : List (Nat × Nat)) (done : List Bool) (cc : List Nat),
      x < b.w → y < b.h → InSync b done cc → b.cellAt x y ≠ 0 →
      done.getD (xy2idx_h b.h x y) false = false →
      InSync b (compGo b fuel x y (v, done)).2 (eraseGo b.w b.h fuel x y cc).1 ∧
      (compGo b fuel x y (v, done)).1.length = v.length + (eraseGo b.w b.h fuel x y cc).2 := by
  intro fuel
  induction fuel with
  | zero =>
    intro x y v done cc _ _ hs _ _
    exact ⟨hs, by simp [compGo, eraseGo]⟩
  | succ f ih =>
    intro x y v done cc hx hy hs hnz hnd
    have hidx : xy2idx_h b.h x y < b.w * b.h := xy2idx_lt hx hy
    have hcol : cc.getD (xy2idx_h b.h x y) 0 = b.cellAt x y :=
      (hs.2.2 _ hidx).2 hnd
    rw [compGo_succ]
    have herase : eraseGo b.w b.h (f + 1) x y cc =
        (neighborL b.w b.h x y).foldl
          (eraseStep b.w b.h f (b.cellAt x y))
          (cc.set (xy2idx_h b.h x y) 0, 1) := by
      rw [eraseGo_succ, hcol]
    rw [herase]
    -- the two loops stay in lockstep over the common neighbor list
    have simFold : ∀ (ns : List (Nat × Nat)), (∀ p ∈ ns, p.1 < b.w ∧ p.2 < b.h) →
        ∀ (v' : List (Nat × Nat)) (done' : List Bool) (cc' : List Nat) (n : Nat),
        InSync b done' cc' →
        InSync b (ns.foldl (compStep b f x y) (v', done')).2
          (ns.foldl (eraseStep b.w b.h f (b.cellAt x y)) (cc', n)).1 ∧
        (ns.foldl (compStep b f x y) (v', done')).1.length + n =
          v'.length + (ns.foldl (eraseStep b.w b.h f (b.cellAt x y)) (cc', n)).2 := by
      intro ns
      induction ns with
      | nil =>
        intro _ v' done' cc' n hs'
        exact ⟨hs', by simp⟩
      | cons p ps ihp =>
        intro hP v' done' cc' n hs'
        have hpb := hP p (List.mem_cons_self _ _)
        have hPps : ∀ q ∈ ps, q.1 < b.w ∧ q.2 < b.h :=
          fun q hq => hP q (List.mem_cons_of_mem _ hq)
        have hjdx : xy2idx_h b.h p.1 p.2 < b.w * b.h := xy2idx_lt hpb.1 hpb.2
        rw [List.foldl_cons, List.foldl_cons]
        by_cases hdone : done'.getD (xy2idx_h b.h p.1 p.2) false = true
        · -- the cell was already visited: both loops skip it
          have hcz : cc'.getD (xy2idx_h b.h p.1 p.2) 0 = 0 := (hs'.2.2 _ hjdx).1 hdone
          have e1 : compStep b f x y (v', done') p = (v', done') := by
            simp only [compStep]
            rw [if_pos hdone]
          have e2 : eraseStep b.w b.h f (b.cellAt x y) (cc', n) p = (cc', n) := by
            simp only [eraseStep]
            rw [if_neg (by rw [hcz]; exact fun hc => hnz hc.symm)]
          rw [e1, e2]
          exact ihp hPps v' done' cc' n hs'
        · have hnd' : done'.getD (xy2idx_h b.h p.1 p.2) false = false :=
            Bool.eq_false_iff.mpr hdone
          have hcc : cc'.getD (xy2idx_h b.h p.1 p.2) 0 = b.cellAt p.1 p.2 :=
            (hs'.2.2 _ hjdx).2 hnd'
          by_cases hcolor : b.cellAt x y = b.cellAt p.1 p.2
          · -- same color: both loops recurse into the cell
            have e1 : compStep b f x y (v', done') p = compGo b f p.1 p.2 (v', done') := by
              simp only [compStep]
              rw [if_neg hdone, if_pos hcolor]
            have e2 : eraseStep b.w b.h f (b.cellAt x y) (cc', n) p =
                ((eraseGo b.w b.h f p.1 p.2 cc').1, n + (eraseGo b.w b.h f p.1 p.2 cc').2) := by
              simp only [eraseStep]
              rw [if_pos (by rw [hcc]; exact hcolor.symm)]
            rw [e1, e2]
            have hrec := ih p.1 p.2 v' done' cc' hpb.1 hpb.2 hs'
              (by rw [← hcolor]; exact hnz) hnd'
            have hrest := ihp hPps (compGo b f p.1 p.2 (v', done')).1
              (compGo b f p.1 p.2 (v', done')).2
              (eraseGo b.w b.h f p.1 p.2 cc').1
              (n + (eraseGo b.w b.h f p.1 p.2 cc').2) hrec.1
            simp only [Prod.mk.eta] at hrest
            constructor
            · exact hrest.1
            · have := hrest.2
              have hlen := hrec.2
              omega
          · -- color mismatch: both loops skip
            have e1 : compStep b f x y (v', done') p = (v', done') := by
              simp only [compStep]
              rw [if_neg hdone, if_neg hcolor]
            have e2 : eraseStep b.w b.h f (b.cellAt x y) (cc', n) p = (cc', n) := by
              simp only [eraseStep]
              rw [if_neg (by rw [hcc]; exact fun hc => hcolor hc.symm)]
            rw [e1, e2]
            exact ihp hPps v' done' cc' n hs'
    have hstart : InSync b (done.set (xy2idx_h b.h x y) true) (cc.set (xy2idx_h b.h x y) 0) :=
      insync_set b done cc x y hx hy hs
    have := simFold (neighborL b.w b.h x y)
      (fun p hp => neighbor_mem_bounds hx hy hp)
      (v ++ [(x, y)]) (done.set (xy2idx_h b.h x y) true) (cc.set (xy2idx_h b.h x y) 0) 1 hstart
    constructor
    · exact this.1
    · have h2 := this.2
      simp only [List.length_append, List.length_cons, List.length_nil] at h2 ⊢
      omega

theorem getD_replicate_self {A : Type} (n i : Nat) (a : A) :
    (List.replicate n a).getD i a = a := by
  rcases Nat.lt_or_ge i n with hi | hi
  · rw [List.getD_eq_getElem _ _ (by simpa using hi)]
    simp
  · exact List.getD_eq_default _ _ (by simpa using hi)

theorem insync_init (b : Board) (hw : WF b) :
    InSync b (List.replicate (b.w * b.h) false) b.cells := by
  refine ⟨by simp, hw.2.2, fun i hi => ⟨?_, fun _ => rfl⟩⟩
  intro habs
  rw [getD_replicate_self] at habs
  simp at habs

theorem compRaw_len_eq_eraseRaw (b : Board) (hw : WF b) (x y : Nat)
    (hx : x < b.w) (hy : y < b.h) (hnz : b.cellAt x y ≠ 0) :
    (compGo b (b.w * b.h + 1) x y ([], List.replicate (b.w * b.h) false)).1.length =
      (b.eraseRaw x y).2 := by
  have hs := insync_init b hw
  have hnd : (List.replicate (b.w * b.h) false).getD (xy2idx_h b.h x y) false = false :=
    getD_replicate_self _ _ _
  have := (simGo b (b.w * b.h + 1) x y [] (List.replicate (b.w * b.h) false) b.cells
    hx hy hs hnz hnd).2
  simpa [Board.eraseRaw] using this

theorem eraseRaw_pos (b : Board) (x y : Nat) : 1 ≤ (b.eraseRaw x y).2 :=
  eraseGo_pos b.w b.h (b.w * b.h) x y b.cells

theorem eraseRaw_one_iff (b : Board) (hw : WF b) (x y : Nat)
    (hx : x < b.w) (hy : y < b.h) :
    (b.eraseRaw x y).2 = 1 ↔
      (∀ p ∈ neighborL b.w b.h x y, b.cellAt p.1 p.2 ≠ b.cellAt x y) := by
  obtain ⟨f, hf⟩ : ∃ f, b.w * b.h = f + 1 :=
    ⟨b.w * b.h - 1, by have := Nat.mul_pos hw.1 hw.2.1; omega⟩
  have hset : ∀ p ∈ neighborL b.w b.h x y,
      (b.cells.set (xy2idx_h b.h x y) 0).getD (xy2idx_h b.h p.1 p.2) 0 =
        b.cellAt p.1 p.2 := by
    intro p hp
    have hpb := neighbor_mem_bounds hx hy hp
    have hne : xy2idx_h b.h x y ≠ xy2idx_h b.h p.1 p.2 := by
      intro heq
      have := xy2idx_inj hy hpb.1 hpb.2 heq
      refine neighbor_ne hp ?_
      rcases p with ⟨a, c⟩
      simp only at this
      simp [this.1, this.2]
    exact getD_set_ne_nat _ _ _ _ _ hne
  constructor
  · intro hone p hp habs
    have hcol : (b.cells.set (xy2idx_h b.h x y) 0).getD (xy2idx_h b.h p.1 p.2) 0 =
        b.cellAt x y := by rw [hset p hp, habs]
    have hhit := eraseFold_hit b.w b.h f (b.cellAt x y) (neighborL b.w b.h x y)
      (b.cells.set (xy2idx_h b.h x y) 0) 1 ⟨p, hp, hcol⟩
    have : b.eraseRaw x y =
        (neighborL b.w b.h x y).foldl (eraseStep b.w b.h (b.w * b.h) (b.cellAt x y))
          (b.cells.set (xy2idx_h b.h x y) 0, 1) := by
      unfold Board.eraseRaw
      rw [eraseGo_succ]
      rfl
    rw [this, hf] at hone
    omega
  · intro hiso
    have : b.eraseRaw x y = (b.cells.set (xy2idx_h b.h x y) 0, 1) := by
      unfold Board.eraseRaw
      rw [eraseGo_succ]
      show (neighborL b.w b.h x y).foldl (eraseStep b.w b.h (b.w * b.h) (b.cellAt x y))
        (b.cells.set (xy2idx_h b.h x y) 0, 1) = _
      exact eraseFold_noop _ _ _ _ _ _
        (fun p hp => by rw [hset p hp]; exact hiso p hp)
    rw [this]

theorem eraseRaw_fix (b : Board) (hw : WF b) (x y : Nat)
    (hone : (b.eraseRaw x y).2 = 1) :
    (b.eraseRaw x y).1 = b.cells.set (xy2idx_h b.h x y) 0 := by
  obtain ⟨f, hf⟩ : ∃ f, b.w * b.h = f + 1 :=
    ⟨b.w * b.h - 1, by have := Nat.mul_pos hw.1 hw.2.1; omega⟩
  have hraw : b.eraseRaw x y =
      (neighborL b.w b.h x y).foldl (eraseStep b.w b.h (b.w * b.h) (b.cellAt x y))
        (b.cells.set (xy2idx_h b.h x y) 0, 1) := by
    unfold Board.eraseRaw
    rw [eraseGo_succ]
    rfl
  rw [hraw] at hone ⊢
  rw [hf] at hone ⊢
  rw [eraseFold_eq_of_fix b.w b.h f (b.cellAt x y) _ _ 1 hone]

/-! ### `erase_component` unfolded by case, and its agreement with `calc_component` -/

theorem board_eta (b : Board) : Board.mk b.w b.h b.cells = b := rfl

theorem erase_component_zero (b : Board) (x y : Nat) (h0 : b.cellAt x y = 0) :
    b.erase_component x y = (b, 0) := by
  simp only [Board.erase_component]
  rw [if_pos h0]

theorem erase_component_of_one (b : Board) (x y : Nat) (h0 : ¬b.cellAt x y = 0)
    (h1 : (b.eraseRaw x y).2 = 1) :
    b.erase_component x y =
      ({ b with cells := (b.eraseRaw x y).1.set (xy2idx_h b.h x y) (b.cellAt x y) }, 0) := by
  simp only [Board.erase_component]
  rw [if_neg h0, if_pos h1]

theorem erase_component_of_many (b : Board) (x y : Nat) (h0 : ¬b.cellAt x y = 0)
    (h1 : ¬(b.eraseRaw x y).2 = 1) :
    b.erase_component x y =
      (Board.pack_colwise (Board.pack_cellwise { b with cells := (b.eraseRaw x y).1 }),
        (b.eraseRaw x y).2) := by
  simp only [Board.erase_component]
  rw [if_neg h0, if_neg h1]

theorem erase_count_eq_calc_length (b : Board) (hw : WF b) (x y : Nat)
    (hx : x < b.w) (hy : y < b.h) :
    (b.erase_component x y).2 = (b.calc_component x y).length := by
  by_cases h0 : b.cellAt x y = 0
  · rw [erase_component_zero b x y h0]
    simp [Board.calc_component, h0]
  · have hlen := compRaw_len_eq_eraseRaw b hw x y hx hy h0
    by_cases h1 : (b.eraseRaw x y).2 = 1
    · rw [erase_component_of_one b x y h0 h1]
      simp only [Board.calc_component]
      rw [if_neg h0, if_pos (by rw [hlen, h1])]
      rfl
    · rw [erase_component_of_many b x y h0 h1]
      simp only [Board.calc_component]
      rw [if_neg h0, if_neg (by rw [hlen]; exact h1)]
      exact hlen.symm

theorem component_singleton_iff (b : Board) (x y : Nat) (hx : x < b.w) (hy : y < b.h)
    (hnz : b.cellAt x y ≠ 0) :
    component b (x, y) = {(x, y)} ↔
      ∀ p ∈ neighborL b.w b.h x y, b.cellAt p.1 p.2 ≠ b.cellAt x y := by
  constructor
  · intro hs p hp habs
    have hpb := neighbor_mem_bounds hx hy hp
    have hstep : adjSame b (x, y) p :=
      ⟨hx, hy, hpb.1, hpb.2, hp, hnz, habs.symm⟩
    have hmem : p ∈ component b (x, y) := Relation.ReflTransGen.single hstep
    rw [hs] at hmem
    exact neighbor_ne hp (by simpa using hmem)
  · intro hiso
    ext q
    simp only [Set.mem_singleton_iff]
    constructor
    · intro hq
      rcases (Relation.ReflTransGen.cases_head hq) with heq | ⟨c, hstep, _⟩
      · exact heq.symm
      · obtain ⟨_, _, _, _, hmem, _, hcol⟩ := hstep
        exact absurd hcol.symm (hiso c hmem)
    · rintro rfl
      exact Relation.ReflTransGen.refl

theorem erase_count_zero_iff (b : Board) (hw : WF b) (x y : Nat)
    (hx : x < b.w) (hy : y < b.h) :
    (b.erase_component x y).2 = 0 ↔
      (b.cellAt x y = 0 ∨ component b (x, y) = {(x, y)}) := by
  by_cases h0 : b.cellAt x y = 0
  · rw [erase_component_zero b x y h0]
    simp [h0]
  · have hiso := component_singleton_iff b x y hx hy h0
    have hone := eraseRaw_one_iff b hw x y hx hy
    by_cases h1 : (b.eraseRaw x y).2 = 1
    · rw [erase_component_of_one b x y h0 h1]
      simp only [h0, false_or]
      constructor
      · intro _
        exact hiso.mpr (hone.mp h1)
      · intro _
        trivial
    · rw [erase_component_of_many b x y h0 h1]
      have hpos := eraseRaw_pos b x y
      simp only [h0, false_or]
      constructor
      · intro habs
        omega
      · intro hcomp
        exact absurd (hone.mpr (hiso.mp hcomp)) h1

theorem erase_unchanged_of_zero (b : Board) (hw : WF b) (x y : Nat)
    (hx : x < b.w) (hy : y < b.h) :
    (b.erase_component x y).2 = 0 → (b.erase_component x y).1 = b := by
  intro hz
  by_cases h0 : b.cellAt x y = 0
  · rw [erase_component_zero b x y h0]
  · have h1 : (b.eraseRaw x y).2 = 1 := by
      by_contra h1
      rw [erase_component_of_many b x y h0 h1] at hz
      have := eraseRaw_pos b x y
      simp only at hz
      omega
    rw [erase_component_of_one b x y h0 h1]
    have hfix := eraseRaw_fix b hw x y h1
    have hidx : xy2idx_h b.h x y < b.cells.length := hw.2.2 ▸ xy2idx_lt hx hy
    simp only
    rw [hfix, List.set_set, set_getD_self b.cells _ (b.cellAt x y) hidx rfl]

/-! ### List surgery at a known offset -/

theorem getD_append_at {A : Type} (F l : List A) (n : Nat) (d : A) (hF : F.length = n) :
    (F ++ l).getD n d = l.getD 0 d := by
  subst hF
  rw [List.getD_append_right _ _ _ _ (Nat.le_refl _)]
  simp

theorem get?_append_at {A : Type} (F l : List A) (n : Nat) (hF : F.length = n) :
    (F ++ l).get? n = l.get? 0 := by
  subst hF
  simp [List.get?_eq_getElem?, List.getElem?_append_right (Nat.le_refl F.length)]

theorem set_append_at {A : Type} (F l : List A) (n : Nat) (v : A) (hF : F.length = n) :
    (F ++ l).set n v = F ++ l.set 0 v := by
  subst hF
  rw [List.set_append_right _ _ (Nat.le_refl _)]
  simp

/-! ### Characterization of the `stable_partition` loop -/

theorem packChunk_spec (h : Nat) (col : List Nat) (hlen : col.length = h) :
    packChunk h col =
      col.filter (fun v => v ≠ 0) ++
        List.replicate (h - (col.filter (fun v => v ≠ 0)).length) 0 := by
  have key : ∀ n, n ≤ h →
      ((List.range n).foldl packStep (0, col)).1 =
        ((col.take n).filter (fun v => v ≠ 0)).length ∧
      ((List.range n).foldl packStep (0, col)).2 =
        (col.take n).filter (fun v => v ≠ 0) ++
          List.replicate (n - ((col.take n).filter (fun v => v ≠ 0)).length) 0 ++
          col.drop n := by
    intro n
    induction n with
    | zero => intro _; simp
    | succ m ihm =>
      intro hm1
      obtain ⟨hi, hc⟩ := ihm (Nat.le_of_succ_le hm1)
      have hmlen : m < col.length := by omega
      have hFle : ((col.take m).filter (fun v => v ≠ 0)).length ≤ m := by
        have h1 := List.length_filter_le (fun v => v ≠ 0) (col.take m)
        have h2 : (col.take m).length = m := by
          rw [List.length_take]
          omega
        omega
      have hdropm : col.drop m = col[m] :: col.drop (m + 1) := List.drop_eq_getElem_cons hmlen
      have htake : col.take (m + 1) = col.take m ++ [col[m]] := by
        rw [List.take_succ, List.getElem?_eq_getElem hmlen]
        rfl
      rw [List.range_succ, List.foldl_append, List.foldl_cons, List.foldl_nil]
      set F := (col.take m).filter (fun v => v ≠ 0) with hF
      set i := F.length with hilen
      set Z := List.replicate (m - i) 0 with hZ
      set D := col.drop (m + 1) with hD
      have hFZ : (F ++ Z).length = m := by
        simp only [List.length_append, hZ, List.length_replicate]
        omega
      have hshape : ((List.range m).foldl packStep (0, col)).2 =
          (F ++ Z) ++ (col[m] :: D) := by
        rw [hc, hdropm, List.append_assoc]
      have hgetm : (((List.range m).foldl packStep (0, col)).2).getD m 0 = col[m] := by
        rw [hshape, getD_append_at _ _ _ _ hFZ]
        rfl
      have hfilterz : col[m] = 0 →
          (col.take (m + 1)).filter (fun v => v ≠ 0) = F := by
        intro hcm
        rw [htake, List.filter_append]
        have hsingle : List.filter (fun v => decide (v ≠ 0)) [col[m]] = [] := by
          rw [hcm]
          rfl
        rw [hsingle, List.append_nil]
      have hfilternz : col[m] ≠ 0 →
          (col.take (m + 1)).filter (fun v => v ≠ 0) = F ++ [col[m]] := by
        intro hcm
        rw [htake, List.filter_append]
        have hsingle : List.filter (fun v => decide (v ≠ 0)) [col[m]] = [col[m]] := by
          rw [List.filter_cons]
          rw [if_pos (by exact decide_eq_true hcm)]
          rfl
        rw [hsingle]
      by_cases hcm : col[m] = 0
      · -- a zero cell: the loop does nothing, the zero block grows
        have hnofire : packStep (((List.range m).foldl packStep (0, col)).1,
            ((List.range m).foldl packStep (0, col)).2) m =
            (((List.range m).foldl packStep (0, col)).1,
             ((List.range m).foldl packStep (0, col)).2) := by
          simp only [packStep]
          rw [if_neg (by rw [hgetm]; simpa using hcm)]
        rw [Prod.mk.eta] at hnofire
        rw [hnofire, hi, hc]
        constructor
        · rw [hfilterz hcm, ← hilen]
        · rw [hfilterz hcm, ← hilen, hdropm, hcm, hZ]
          have hstep2 : List.replicate (m - i) 0 ++ (0 : Nat) :: D =
              List.replicate (m + 1 - i) 0 ++ D := by
            rw [show ((0 : Nat) :: D) = [0] ++ D from rfl, ← List.append_assoc,
              ← List.replicate_succ', show m - i + 1 = m + 1 - i by omega]
          rw [List.append_assoc, hstep2, ← List.append_assoc]
      · -- a nonzero cell: swap it down to the cursor
        have hfire : packStep (((List.range m).foldl packStep (0, col)).1,
            ((List.range m).foldl packStep (0, col)).2) m =
            (i + 1, listSwap (((List.range m).foldl packStep (0, col)).2) i m) := by
          simp only [packStep]
          rw [if_pos (by rw [hgetm]; simpa using hcm)]
          rw [hi]
        rw [Prod.mk.eta] at hfire
        rw [hfire]
        have hflen : ((col.take (m + 1)).filter (fun v => v ≠ 0)).length = i + 1 := by
          rw [hfilternz hcm]
          simp
        refine ⟨by rw [hflen], ?_⟩
        show listSwap (((List.range m).foldl packStep (0, col)).2) i m = _
        rw [hflen, hfilternz hcm]
        have hget?m : (((List.range m).foldl packStep (0, col)).2).get? m =
            some col[m] := by
          rw [hshape, get?_append_at _ _ _ hFZ]
          rfl
        rcases Nat.lt_or_ge i m with him | him
        · -- cursor strictly below the scan: position i holds a zero
          have hZcons : Z = 0 :: List.replicate (m - i - 1) 0 := by
            rw [hZ]
            rw [show m - i = (m - i - 1) + 1 by omega, List.replicate_succ]
            simp
          have hshape2 : ((List.range m).foldl packStep (0, col)).2 =
              F ++ (0 :: (List.replicate (m - i - 1) 0 ++ col[m] :: D)) := by
            rw [hshape, hZcons]
            simp [List.append_assoc]
          have hget?i : (((List.range m).foldl packStep (0, col)).2).get? i =
              some 0 := by
            rw [hshape2, get?_append_at _ _ _ hilen.symm]
            rfl
          have hswap : listSwap (((List.range m).foldl packStep (0, col)).2) i m =
              ((((List.range m).foldl packStep (0, col)).2).set i col[m]).set m 0 := by
            unfold listSwap
            rw [hget?i, hget?m]
          rw [hswap]
          have hset1 : (((List.range m).foldl packStep (0, col)).2).set i col[m] =
              (F ++ [col[m]] ++ List.replicate (m - i - 1) 0) ++ (col[m] :: D) := by
            rw [hshape2, set_append_at _ _ _ _ hilen.symm]
            simp [List.append_assoc]
          rw [hset1]
          have hlenpre : (F ++ [col[m]] ++ List.replicate (m - i - 1) 0).length = m := by
            simp only [List.length_append, List.length_cons, List.length_nil,
              List.length_replicate]
            omega
          rw [set_append_at _ _ _ _ hlenpre]
          have hsetz : (col[m] :: D).set 0 0 = 0 :: D := by simp
          rw [hsetz]
          have hrepl : List.replicate (m - i - 1) 0 ++ ((0 : Nat) :: D) =
              List.replicate (m + 1 - (i + 1)) 0 ++ D := by
            rw [show ((0 : Nat) :: D) = [0] ++ D from rfl, ← List.append_assoc,
              ← List.replicate_succ', show m - i - 1 + 1 = m + 1 - (i + 1) by omega]
          calc (F ++ [col[m]] ++ List.replicate (m - i - 1) 0) ++ ((0 : Nat) :: D)
              = F ++ [col[m]] ++ (List.replicate (m - i - 1) 0 ++ ((0 : Nat) :: D)) := by
                simp [List.append_assoc]
            _ = F ++ [col[m]] ++ (List.replicate (m + 1 - (i + 1)) 0 ++ D) := by rw [hrepl]
            _ = F ++ [col[m]] ++ List.replicate (m + 1 - (i + 1)) 0 ++ D := by
                simp [List.append_assoc]
        · -- cursor equals the scan position: the swap is the identity
          have hieq : i = m := by omega
          have hZnil : Z = [] := by
            rw [hZ, hieq]
            simp
          have hshape3 : ((List.range m).foldl packStep (0, col)).2 =
              F ++ (col[m] :: D) := by
            rw [hshape, hZnil]
            simp
          have hget?i : (((List.range m).foldl packStep (0, col)).2).get? i =
              some col[m] := by
            rw [hshape3, get?_append_at _ _ _ hilen.symm]
            rfl
          have hswap : listSwap (((List.range m).foldl packStep (0, col)).2) i m =
              ((List.range m).foldl packStep (0, col)).2 := by
            unfold listSwap
            rw [hget?i, hget?m, hieq]
            show ((((List.range m).foldl packStep (0, col)).2).set m col[m]).set m
                col[m] = ((List.range m).foldl packStep (0, col)).2
            rw [List.set_set]
            have hclen : (((List.range m).foldl packStep (0, col)).2).length = col.length := by
              rw [hshape3]
              simp only [List.length_append, List.length_cons, hD, List.length_drop]
              have hFm : F.length = m := by rw [← hilen, hieq]
              omega
            exact set_getD_self _ _ _ (by omega) hgetm
          rw [hswap, hshape3]
          rw [show m + 1 - (i + 1) = 0 by omega]
          simp
  have hfin := (key h (Nat.le_refl h)).2
  unfold packChunk
  rw [hfin, ← hlen]
  simp

/-! ### Chunk decomposition of the flat buffer -/

theorem chunksN_length (w h : Nat) : ∀ cells, (chunksN w h cells).length = w := by
  induction w with
  | zero => intro cells; rfl
  | succ n ih => intro cells; simp [chunksN, ih]

theorem chunksN_mem_length (w h : Nat) :
    ∀ cells, cells.length = w * h → ∀ c ∈ chunksN w h cells, c.length = h := by
  induction w with
  | zero => intro cells _ c hc; simp [chunksN] at hc
  | succ n ih =>
    intro cells hlen c hc
    simp only [chunksN, List.mem_cons] at hc
    rcases hc with rfl | hc
    · rw [List.length_take]
      have : n * h + h ≤ cells.length := by rw [hlen]; ring_nf; omega
      omega
    · exact ih (cells.drop h) (by rw [List.length_drop, hlen]; ring_nf; omega) c hc

theorem chunksN_flatten (w h : Nat) :
    ∀ cells, cells.length = w * h → (chunksN w h cells).flatten = cells := by
  induction w with
  | zero =>
    intro cells hlen
    have : cells = [] := List.eq_nil_of_length_eq_zero (by omega)
    simp [chunksN, this]
  | succ n ih =>
    intro cells hlen
    simp only [chunksN, List.flatten_cons]
    rw [ih (cells.drop h) (by rw [List.length_drop, hlen]; ring_nf; omega)]
    exact List.take_append_drop h cells

theorem chunksN_of_cons (w h : Nat) (c rest : List Nat) (hc : c.length = h) :
    chunksN (w + 1) h (c ++ rest) = c :: chunksN w h rest := by
  simp only [chunksN]
  rw [← hc, List.take_left, List.drop_left]

theorem chunksN_flatten_inv (h : Nat) :
    ∀ (cols : List (List Nat)), (∀ c ∈ cols, c.length = h) →
      chunksN cols.length h cols.flatten = cols := by
  intro cols
  induction cols with
  | nil => intro _; rfl
  | cons c cs ih =>
    intro hlens
    simp only [List.length_cons, List.flatten_cons]
    rw [chunksN_of_cons _ _ _ _ (hlens c (List.mem_cons_self _ _))]
    rw [ih (fun d hd => hlens d (List.mem_cons_of_mem _ hd))]

theorem chunksN_getD (h : Nat) :
    ∀ (w x k : Nat) (cells : List Nat), x < w → k < h → cells.length = w * h →
      ((chunksN w h cells).getD x []).getD k 0 = cells.getD (h * x + k) 0 := by
  intro w
  induction w with
  | zero => intro x k cells hx; omega
  | succ n ih =>
    intro x k cells hx hk hlen
    cases x with
    | zero =>
      simp only [chunksN, List.getD_cons_zero, Nat.mul_zero, Nat.zero_add]
      rw [List.getD_eq_getD_get?, List.getD_eq_getD_get?, List.get?_eq_getElem?,
        List.get?_eq_getElem?, List.getElem?_take, if_pos hk]
    | succ m =>
      simp only [chunksN, List.getD_cons_succ]
      rw [ih m k (cells.drop h) (by omega) hk
        (by rw [List.length_drop, hlen]; ring_nf; omega)]
      rw [List.getD_eq_getD_get?, List.getD_eq_getD_get?, List.get?_eq_getElem?,
        List.get?_eq_getElem?, List.getElem?_drop]
      congr 2
      ring

/-! ### Characterization of the `pack_colwise` loop -/

theorem colwise_spec (h : Nat) (w : Nat) (cols : List (List Nat))
    (hw : cols.length = w) (hlens : ∀ c ∈ cols, c.length = h) :
    ((List.range w).foldl (colStep h) (0, cols)).2 =
      cols.filter (fun c => !(c.all (· = 0))) ++
        List.replicate (w - (cols.filter (fun c => !(c.all (· = 0)))).length)
          (List.replicate h 0) := by
  have key : ∀ n, n ≤ w →
      ((List.range n).foldl (colStep h) (0, cols)).1 =
        ((cols.take n).filter (fun c => !(c.all (· = 0)))).length ∧
      ((List.range n).foldl (colStep h) (0, cols)).2 =
        (cols.take n).filter (fun c => !(c.all (· = 0))) ++
          List.replicate (n - ((cols.take n).filter (fun c => !(c.all (· = 0)))).length)
            (List.replicate h 0) ++
          cols.drop n := by
    intro n
    induction n with
    | zero => intro _; simp
    | succ m ihm =>
      intro hm1
      obtain ⟨hi, hc⟩ := ihm (Nat.le_of_succ_le hm1)
      have hmlen : m < cols.length := by omega
      have hFle : ((cols.take m).filter (fun c => !(c.all (· = 0)))).length ≤ m := by
        have h1 := List.length_filter_le (fun c => !(c.all (· = 0))) (cols.take m)
        have h2 : (cols.take m).length = m := by
          rw [List.length_take]
          omega
        omega
      have hdropm : cols.drop m = cols[m] :: cols.drop (m + 1) :=
        List.drop_eq_getElem_cons hmlen
      have htake : cols.take (m + 1) = cols.take m ++ [cols[m]] := by
        rw [List.take_succ, List.getElem?_eq_getElem hmlen]
        rfl
      rw [List.range_succ, List.foldl_append, List.foldl_cons, List.foldl_nil]
      set F := (cols.take m).filter (fun c => !(c.all (· = 0))) with hF
      set t := F.length with htlen
      set Z := List.replicate (m - t) (List.replicate h 0) with hZ
      set D := cols.drop (m + 1) with hD
      have hFZ : (F ++ Z).length = m := by
        simp only [List.length_append, hZ, List.length_replicate]
        omega
      have hshape : ((List.range m).foldl (colStep h) (0, cols)).2 =
          (F ++ Z) ++ (cols[m] :: D) := by
        rw [hc, hdropm, List.append_assoc]
      have hgetm : (((List.range m).foldl (colStep h) (0, cols)).2).getD m [] =
          cols[m] := by
        rw [hshape, getD_append_at _ _ _ _ hFZ]
        rfl
      have hfilterz : cols[m].all (· = 0) = true →
          (cols.take (m + 1)).filter (fun c => !(c.all (· = 0))) = F := by
        intro hcm
        rw [htake, List.filter_append]
        have hsingle : List.filter (fun c => !(c.all (· = 0))) [cols[m]] = [] := by
          rw [List.filter_cons, if_neg (by simp [hcm])]
          rfl
        rw [hsingle, List.append_nil]
      have hfilternz : ¬(cols[m].all (· = 0) = true) →
          (cols.take (m + 1)).filter (fun c => !(c.all (· = 0))) = F ++ [cols[m]] := by
        intro hcm
        rw [htake, List.filter_append]
        have hsingle : List.filter (fun c => !(c.all (· = 0))) [cols[m]] = [cols[m]] := by
          rw [List.filter_cons, if_pos (by simp [hcm])]
          rfl
        rw [hsingle]
      by_cases hcm : cols[m].all (· = 0) = true
      · -- an all-zero column: skipped, and it literally is `replicate h 0`
        have hrep : cols[m] = List.replicate h 0 :=
          all_zero_eq_replicate _ _ (hlens _ (List.getElem_mem hmlen)) hcm
        have hnofire : colStep h (((List.range m).foldl (colStep h) (0, cols)).1,
            ((List.range m).foldl (colStep h) (0, cols)).2) m =
            (((List.range m).foldl (colStep h) (0, cols)).1,
             ((List.range m).foldl (colStep h) (0, cols)).2) := by
          simp only [colStep]
          rw [if_pos (by rw [hgetm]; exact hcm)]
        rw [Prod.mk.eta] at hnofire
        rw [hnofire, hi, hc]
        constructor
        · rw [hfilterz hcm, ← htlen]
        · rw [hfilterz hcm, ← htlen, hdropm]
          have hstep2 : Z ++ cols[m] :: D =
              List.replicate (m + 1 - t) (List.replicate h 0) ++ D := by
            rw [hZ, hrep, show (List.replicate h 0 :: D) = [List.replicate h 0] ++ D from rfl,
              ← List.append_assoc, ← List.replicate_succ',
              show m - t + 1 = m + 1 - t by omega]
          rw [List.append_assoc, hstep2, ← List.append_assoc]
      · -- a non-empty column: move it to the cursor
        have hfire : colStep h (((List.range m).foldl (colStep h) (0, cols)).1,
            ((List.range m).foldl (colStep h) (0, cols)).2) m =
            (t + 1,
              if t ≠ m then
                ((((List.range m).foldl (colStep h) (0, cols)).2).set t cols[m]).set m
                  (List.replicate h 0)
              else ((List.range m).foldl (colStep h) (0, cols)).2) := by
          simp only [colStep]
          rw [hgetm]
          rw [if_neg hcm, hi]
        rw [Prod.mk.eta] at hfire
        rw [hfire]
        have hflen : ((cols.take (m + 1)).filter (fun c => !(c.all (· = 0)))).length =
            t + 1 := by
          rw [hfilternz hcm]
          simp
        refine ⟨by rw [hflen], ?_⟩
        show (if t ≠ m then
            ((((List.range m).foldl (colStep h) (0, cols)).2).set t cols[m]).set m
              (List.replicate h 0)
          else ((List.range m).foldl (colStep h) (0, cols)).2) = _
        rw [hflen, hfilternz hcm]
        rcases Nat.lt_or_ge t m with him | him
        · -- cursor strictly left of the scan: move and zero-fill
          rw [if_pos (by omega)]
          have hZcons : Z = List.replicate h 0 :: List.replicate (m - t - 1) (List.replicate h 0) := by
            rw [hZ]
            rw [show m - t = (m - t - 1) + 1 by omega, List.replicate_succ]
            simp
          have hshape2 : ((List.range m).foldl (colStep h) (0, cols)).2 =
              F ++ (List.replicate h 0 ::
                (List.replicate (m - t - 1) (List.replicate h 0) ++ cols[m] :: D)) := by
            rw [hshape, hZcons]
            simp [List.append_assoc]
          have hset1 : (((List.range m).foldl (colStep h) (0, cols)).2).set t cols[m] =
              (F ++ [cols[m]] ++ List.replicate (m - t - 1) (List.replicate h 0)) ++
                (cols[m] :: D) := by
            rw [hshape2, set_append_at _ _ _ _ htlen.symm]
            simp [List.append_assoc]
          rw [hset1]
          have hlenpre : (F ++ [cols[m]] ++
              List.replicate (m - t - 1) (List.replicate h 0)).length = m := by
            simp only [List.length_append, List.length_cons, List.length_nil,
              List.length_replicate]
            omega
          rw [set_append_at _ _ _ _ hlenpre]
          have hsetz : (cols[m] :: D).set 0 (List.replicate h 0) =
              List.replicate h 0 :: D := by simp
          rw [hsetz]
          have hrepl : List.replicate (m - t - 1) (List.replicate h 0) ++
              (List.replicate h 0 :: D) =
              List.replicate (m + 1 - (t + 1)) (List.replicate h 0) ++ D := by
            rw [show (List.replicate h 0 :: D) = [List.replicate h 0] ++ D from rfl,
              ← List.append_assoc, ← List.replicate_succ',
              show m - t - 1 + 1 = m + 1 - (t + 1) by omega]
          calc (F ++ [cols[m]] ++ List.replicate (m - t - 1) (List.replicate h 0)) ++
                (List.replicate h 0 :: D)
              = F ++ [cols[m]] ++ (List.replicate (m - t - 1) (List.replicate h 0) ++
                  (List.replicate h 0 :: D)) := by simp [List.append_assoc]
            _ = F ++ [cols[m]] ++ (List.replicate (m + 1 - (t + 1)) (List.replicate h 0) ++ D) := by
                rw [hrepl]
            _ = F ++ [cols[m]] ++ List.replicate (m + 1 - (t + 1)) (List.replicate h 0) ++ D := by
                simp [List.append_assoc]
        · -- cursor equals the scan position: nothing moves
          have hteq : t = m := by omega
          rw [if_neg (by omega)]
          have hZnil : Z = [] := by
            rw [hZ, hteq]
            simp
          have hshape3 : ((List.range m).foldl (colStep h) (0, cols)).2 =
              F ++ (cols[m] :: D) := by
            rw [hshape, hZnil]
            simp
          rw [hshape3, show m + 1 - (t + 1) = 0 by omega]
          simp
  have hfin := (key w (Nat.le_refl w)).2
  rw [hfin, ← hw]
  simp

/-! ### The two packing passes at the board level -/

theorem packedCol_length (h : Nat) (c : List Nat) (hc : c.length = h) :
    (packedCol c).length = h := by
  unfold packedCol
  have := List.length_filter_le (fun v => decide (v ≠ 0)) c
  simp only [List.length_append, List.length_replicate]
  omega

theorem packChunk_eq_packedCol (h : Nat) (c : List Nat) (hc : c.length = h) :
    packChunk h c = packedCol c := by
  rw [packChunk_spec h c hc, packedCol, hc]

theorem flatten_len_const (h : Nat) :
    ∀ cols : List (List Nat), (∀ c ∈ cols, c.length = h) →
      cols.flatten.length = cols.length * h := by
  intro cols
  induction cols with
  | nil => intro _; simp
  | cons c cs ih =>
    intro hl
    simp only [List.flatten_cons, List.length_append, List.length_cons]
    rw [ih (fun d hd => hl d (List.mem_cons_of_mem _ hd)), hl c (List.mem_cons_self _ _)]
    ring

theorem pack_cellwise_w (b : Board) : (Board.pack_cellwise b).w = b.w := rfl

theorem pack_cellwise_h (b : Board) : (Board.pack_cellwise b).h = b.h := rfl

theorem pack_colwise_w (b : Board) : (Board.pack_colwise b).w = b.w := rfl

theorem pack_colwise_h (b : Board) : (Board.pack_colwise b).h = b.h := rfl

theorem colsOf_map_packed (b : Board) (hw : WF b) :
    (Board.pack_cellwise b).colsOf = (b.colsOf).map packedCol := by
  have hclen : (b.colsOf).length = b.w := chunksN_length b.w b.h b.cells
  have hmem : ∀ c ∈ b.colsOf, c.length = b.h :=
    chunksN_mem_length b.w b.h b.cells hw.2.2
  have hmap : (b.colsOf).map (packChunk b.h) = (b.colsOf).map packedCol :=
    List.map_congr_left (fun c hc => packChunk_eq_packedCol b.h c (hmem c hc))
  show chunksN b.w b.h (((b.colsOf).map (packChunk b.h)).flatten) = _
  rw [hmap]
  have hlens : ∀ c ∈ (b.colsOf).map packedCol, c.length = b.h := by
    intro c hc
    rcases List.mem_map.mp hc with ⟨d, hd, rfl⟩
    exact packedCol_length b.h d (hmem d hd)
  have hlenm : ((b.colsOf).map packedCol).length = b.w := by
    rw [List.length_map, hclen]
  rw [← hlenm]
  exact chunksN_flatten_inv b.h _ hlens

theorem pack_both_spec (b : Board) (hw : WF b) :
    (Board.pack_colwise (Board.pack_cellwise b)).colsOf =
      ((b.colsOf).map packedCol).filter (fun c => !(c.all (· = 0))) ++
        List.replicate
          (b.w - (((b.colsOf).map packedCol).filter (fun c => !(c.all (· = 0)))).length)
          (List.replicate b.h 0) := by
  have hcols1 := colsOf_map_packed b hw
  have hclen : (b.colsOf).length = b.w := chunksN_length b.w b.h b.cells
  have hmem : ∀ c ∈ b.colsOf, c.length = b.h :=
    chunksN_mem_length b.w b.h b.cells hw.2.2
  have hlens1 : ∀ c ∈ (b.colsOf).map packedCol, c.length = b.h := by
    intro c hc
    rcases List.mem_map.mp hc with ⟨d, hd, rfl⟩
    exact packedCol_length b.h d (hmem d hd)
  have hlenm : ((b.colsOf).map packedCol).length = b.w := by
    rw [List.length_map, hclen]
  have hfold := colwise_spec b.h b.w ((b.colsOf).map packedCol) hlenm hlens1
  have hfle : (((b.colsOf).map packedCol).filter (fun c => !(c.all (· = 0)))).length ≤ b.w := by
    have := List.length_filter_le (fun c => !(c.all (· = 0))) ((b.colsOf).map packedCol)
    omega
  have hlens2 : ∀ c ∈ ((b.colsOf).map packedCol).filter (fun c => !(c.all (· = 0))) ++
      List.replicate
        (b.w - (((b.colsOf).map packedCol).filter (fun c => !(c.all (· = 0)))).length)
        (List.replicate b.h 0), c.length = b.h := by
    intro c hc
    rcases List.mem_append.mp hc with hc | hc
    · exact hlens1 c (List.mem_of_mem_filter hc)
    · rw [(List.mem_replicate.mp hc).2]
      simp
  have hlen2 : ((((b.colsOf).map packedCol).filter (fun (c : List Nat) => !(c.all (· = 0)))) ++
      List.replicate
        (b.w - ((((b.colsOf).map packedCol).filter (fun (c : List Nat) => !(c.all (· = 0))))).length)
        (List.replicate b.h 0)).length = b.w := by
    simp only [List.length_append, List.length_replicate, List.length_filter_le]
    omega
  show chunksN (Board.pack_cellwise b).w (Board.pack_cellwise b).h
      ((((List.range (Board.pack_cellwise b).w).foldl (colStep (Board.pack_cellwise b).h)
        (0, (Board.pack_cellwise b).colsOf)).2).flatten) = _
  rw [pack_cellwise_w, pack_cellwise_h, hcols1, hfold]
  have hinv := chunksN_flatten_inv b.h _ hlens2
  rw [hlen2] at hinv
  exact hinv

theorem countNZ_append (l1 l2 : List Nat) :
    countNZ (l1 ++ l2) = countNZ l1 + countNZ l2 := by
  unfold countNZ
  exact List.countP_append _ _ _

theorem countNZ_flatten : ∀ cols : List (List Nat),
    countNZ cols.flatten = (cols.map countNZ).sum := by
  intro cols
  induction cols with
  | nil => rfl
  | cons c cs ih => simp [List.flatten_cons, countNZ_append, ih]

theorem countNZ_packedCol (c : List Nat) : countNZ (packedCol c) = countNZ c := by
  unfold packedCol
  rw [countNZ_append]
  have h1 : countNZ (c.filter (fun v => v ≠ 0)) = (c.filter (fun v => v ≠ 0)).length := by
    unfold countNZ
    rw [List.countP_eq_length]
    intro a ha
    exact (List.mem_filter.mp ha).2
  have h2 : countNZ (List.replicate (c.length - (c.filter (fun v => v ≠ 0)).length) 0) = 0 := by
    unfold countNZ
    rw [List.countP_eq_zero]
    intro a ha
    rw [(List.mem_replicate.mp ha).2]
    simp
  rw [h1, h2]
  unfold countNZ
  rw [List.countP_eq_length_filter]
  omega

theorem countNZ_all_zero (c : List Nat) (hz : c.all (· = 0) = true) : countNZ c = 0 := by
  unfold countNZ
  rw [List.countP_eq_zero]
  intro a ha
  have := List.all_eq_true.mp hz a ha
  simp at this
  simp [this]

theorem sum_countNZ_filter (cols : List (List Nat)) :
    ((cols.filter (fun c => !(c.all (· = 0)))).map countNZ).sum =
      (cols.map countNZ).sum := by
  induction cols with
  | nil => rfl
  | cons c cs ih =>
    rw [List.filter_cons]
    by_cases hc : c.all (· = 0) = true
    · rw [if_neg (by simp [hc])]
      simp only [List.map_cons, List.sum_cons]
      rw [ih, countNZ_all_zero c hc]
      omega
    · rw [if_pos (by simp [hc])]
      simp only [List.map_cons, List.sum_cons]
      rw [ih]

theorem pack_both_cells (b : Board) (hw : WF b) :
    (Board.pack_colwise (Board.pack_cellwise b)).cells =
      (((b.colsOf).map packedCol).filter (fun (c : List Nat) => !(c.all (· = 0))) ++
        List.replicate
          (b.w - (((b.colsOf).map packedCol).filter (fun (c : List Nat) => !(c.all (· = 0)))).length)
          (List.replicate b.h 0)).flatten := by
  have hcols1 := colsOf_map_packed b hw
  have hclen : (b.colsOf).length = b.w := chunksN_length b.w b.h b.cells
  have hlenm : ((b.colsOf).map packedCol).length = b.w := by
    rw [List.length_map, hclen]
  have hmem : ∀ c ∈ b.colsOf, c.length = b.h :=
    chunksN_mem_length b.w b.h b.cells hw.2.2
  have hlens1 : ∀ c ∈ (b.colsOf).map packedCol, c.length = b.h := by
    intro c hc
    rcases List.mem_map.mp hc with ⟨d, hd, rfl⟩
    exact packedCol_length b.h d (hmem d hd)
  show ((((List.range (Board.pack_cellwise b).w).foldl (colStep (Board.pack_cellwise b).h)
      (0, (Board.pack_cellwise b).colsOf)).2).flatten) = _
  rw [pack_cellwise_w, pack_cellwise_h, hcols1,
    colwise_spec b.h b.w ((b.colsOf).map packedCol) hlenm hlens1]

theorem pack_both_WF (b : Board) (hw : WF b) :
    WF (Board.pack_colwise (Board.pack_cellwise b)) := by
  refine ⟨hw.1, hw.2.1, ?_⟩
  rw [pack_both_cells b hw, pack_colwise_w, pack_colwise_h, pack_cellwise_w,
    pack_cellwise_h]
  have hclen : (b.colsOf).length = b.w := chunksN_length b.w b.h b.cells
  have hmem : ∀ c ∈ b.colsOf, c.length = b.h :=
    chunksN_mem_length b.w b.h b.cells hw.2.2
  have hlens2 : ∀ c ∈ ((b.colsOf).map packedCol).filter (fun (c : List Nat) => !(c.all (· = 0))) ++
      List.replicate
        (b.w - (((b.colsOf).map packedCol).filter (fun (c : List Nat) => !(c.all (· = 0)))).length)
        (List.replicate b.h 0), c.length = b.h := by
    intro c hc
    rcases List.mem_append.mp hc with hc | hc
    · rcases List.mem_map.mp (List.mem_of_mem_filter hc) with ⟨d, hd, rfl⟩
      exact packedCol_length b.h d (hmem d hd)
    · rw [(List.mem_replicate.mp hc).2]
      simp
  rw [flatten_len_const b.h _ hlens2]
  have hfle := List.length_filter_le (fun (c : List Nat) => !(c.all (· = 0)))
    ((b.colsOf).map packedCol)
  have hlm : ((b.colsOf).map packedCol).length = b.w := by
    rw [List.length_map, hclen]
  simp only [List.length_append, List.length_replicate]
  rw [hlm] at hfle
  have : (((b.colsOf).map packedCol).filter (fun (c : List Nat) => !(c.all (· = 0)))).length +
      (b.w - (((b.colsOf).map packedCol).filter (fun (c : List Nat) => !(c.all (· = 0)))).length) = b.w := by
    omega
  rw [this]

theorem erase_w (b : Board) (x y : Nat) : (b.erase_component x y).1.w = b.w := by
  by_cases h0 : b.cellAt x y = 0
  · rw [erase_component_zero b x y h0]
  · by_cases h1 : (b.eraseRaw x y).2 = 1
    · rw [erase_component_of_one b x y h0 h1]
    · rw [erase_component_of_many b x y h0 h1]
      rfl

theorem erase_h (b : Board) (x y : Nat) : (b.erase_component x y).1.h = b.h := by
  by_cases h0 : b.cellAt x y = 0
  · rw [erase_component_zero b x y h0]
  · by_cases h1 : (b.eraseRaw x y).2 = 1
    · rw [erase_component_of_one b x y h0 h1]
    · rw [erase_component_of_many b x y h0 h1]
      rfl

theorem mid_WF (b : Board) (hw : WF b) (x y : Nat) :
    WF { b with cells := (b.eraseRaw x y).1 } := by
  refine ⟨hw.1, hw.2.1, ?_⟩
  show ((b.eraseRaw x y).1).length = b.w * b.h
  unfold Board.eraseRaw
  rw [eraseGo_len]
  exact hw.2.2

theorem erase_WF (b : Board) (hw : WF b) (x y : Nat) :
    WF (b.erase_component x y).1 := by
  by_cases h0 : b.cellAt x y = 0
  · rw [erase_component_zero b x y h0]
    exact hw
  · by_cases h1 : (b.eraseRaw x y).2 = 1
    · rw [erase_component_of_one b x y h0 h1]
      refine ⟨hw.1, hw.2.1, ?_⟩
      show (((b.eraseRaw x y).1).set _ _).length = b.w * b.h
      rw [List.length_set]
      show ((b.eraseRaw x y).1).length = b.w * b.h
      unfold Board.eraseRaw
      rw [eraseGo_len]
      exact hw.2.2
    · rw [erase_component_of_many b x y h0 h1]
      exact pack_both_WF _ (mid_WF b hw x y)

theorem countNZ_pack_both (b : Board) (hw : WF b) :
    countNZ (Board.pack_colwise (Board.pack_cellwise b)).cells = countNZ b.cells := by
  rw [pack_both_cells b hw, countNZ_flatten, List.map_append, List.sum_append]
  have hz : ((List.replicate
      (b.w - (((b.colsOf).map packedCol).filter (fun (c : List Nat) => !(c.all (· = 0)))).length)
      (List.replicate b.h 0)).map countNZ).sum = 0 := by
    rw [List.map_replicate]
    have : countNZ (List.replicate b.h 0) = 0 :=
      countNZ_all_zero _ (by simp)
    rw [this]
    simp
  rw [hz, Nat.add_zero, sum_countNZ_filter, List.map_map]
  have hmapeq : ((b.colsOf).map (countNZ ∘ packedCol)) = (b.colsOf).map countNZ :=
    List.map_congr_left (fun c _ => countNZ_packedCol c)
  rw [hmapeq, ← countNZ_flatten]
  show countNZ (chunksN b.w b.h b.cells).flatten = countNZ b.cells
  rw [chunksN_flatten b.w b.h b.cells hw.2.2]

theorem erase_countNZ (b : Board) (hw : WF b) (x y : Nat)
    (hx : x < b.w) (hy : y < b.h) (hpos : 0 < (b.erase_component x y).2) :
    countNZ (b.erase_component x y).1.cells + (b.erase_component x y).2 =
      countNZ b.cells := by
  by_cases h0 : b.cellAt x y = 0
  · rw [erase_component_zero b x y h0] at hpos
    simp at hpos
  · by_cases h1 : (b.eraseRaw x y).2 = 1
    · rw [erase_component_of_one b x y h0 h1] at hpos
      simp at hpos
    · rw [erase_component_of_many b x y h0 h1] at hpos ⊢
      simp only at hpos ⊢
      rw [countNZ_pack_both _ (mid_WF b hw x y)]
      show countNZ (b.eraseRaw x y).1 + (b.eraseRaw x y).2 = countNZ b.cells
      unfold Board.eraseRaw
      exact eraseGo_countNZ b.w b.h (b.w * b.h + 1) x y b.cells hx hy hw.2.2 h0

theorem successRun_le :
    ∀ (ms : List (Nat × Nat)) (b : Board), WF b → SuccessRun b ms →
      ms.length ≤ countNZ b.cells := by
  intro ms
  induction ms with
  | nil => intro b _ _; simp
  | cons p ps ih =>
    intro b hw hrun
    obtain ⟨hx, hy, hpos, hrest⟩ := hrun
    have hw' : WF (b.erase_component p.1 p.2).1 := erase_WF b hw p.1 p.2
    have hcnt := erase_countNZ b hw p.1 p.2 hx hy hpos
    have hih := ih _ hw' hrest
    simp only [List.length_cons]
    omega

theorem countNZ_le_len (l : List Nat) : countNZ l ≤ l.length :=
  List.countP_le_length _

/-! ### `is_finished` characterizations -/

theorem is_finished_iff_cellwise (b : Board) :
    b.is_finished = true ↔
      ∀ x y, x < b.w → y < b.h → b.cellAt x y ≠ 0 →
        ¬(0 < x ∧ b.cellAt x y = b.cellAt (x - 1) y) ∧
        ¬(0 < y ∧ b.cellAt x y = b.cellAt x (y - 1)) := by
  unfold Board.is_finished
  rw [List.all_eq_true]
  constructor
  · intro hall x y hx hy hnz
    have h1 := List.all_eq_true.mp (hall x (List.mem_range.mpr hx)) y (List.mem_range.mpr hy)
    simp only at h1
    rw [if_neg hnz] at h1
    by_cases hA : 0 < x ∧ b.cellAt x y = b.cellAt (x - 1) y
    · rw [if_pos hA] at h1
      simp at h1
    · rw [if_neg hA] at h1
      by_cases hB : 0 < y ∧ b.cellAt x y = b.cellAt x (y - 1)
      · rw [if_pos hB] at h1
        simp at h1
      · exact ⟨hA, hB⟩
  · intro hyp x hxmem
    rw [List.all_eq_true]
    intro y hymem
    have hx := List.mem_range.mp hxmem
    have hy := List.mem_range.mp hymem
    by_cases hnz : b.cellAt x y = 0
    · rw [if_pos hnz]
    · obtain ⟨hA, hB⟩ := hyp x y hx hy hnz
      rw [if_neg hnz, if_neg hA, if_neg hB]

theorem finished_iff_adjacent (b : Board) :
    b.is_finished = true ↔
      ∀ p q : Nat × Nat, p.1 < b.w → p.2 < b.h → q.1 < b.w → q.2 < b.h →
        adjacentP p q → ¬(b.cellAt p.1 p.2 ≠ 0 ∧ b.cellAt p.1 p.2 = b.cellAt q.1 q.2) := by
  rw [is_finished_iff_cellwise]
  constructor
  · intro hcw p q hp1 hp2 hq1 hq2 hadj hand
    obtain ⟨hnz, heq⟩ := hand
    rcases hadj with ⟨hx, hv | hv⟩ | ⟨hy, hh | hh⟩
    · -- q directly above p
      have h2 := (hcw q.1 q.2 hq1 hq2 (by rw [← heq]; exact hnz)).2
      refine h2 ⟨by omega, ?_⟩
      rw [show q.2 - 1 = p.2 by omega, ← heq, hx]
    · -- p directly above q
      have h2 := (hcw p.1 p.2 hp1 hp2 hnz).2
      refine h2 ⟨by omega, ?_⟩
      rw [show p.2 - 1 = q.2 by omega, heq, hx]
    · -- q directly right of p
      have h2 := (hcw q.1 q.2 hq1 hq2 (by rw [← heq]; exact hnz)).1
      refine h2 ⟨by omega, ?_⟩
      rw [show q.1 - 1 = p.1 by omega, ← heq, hy]
    · -- p directly right of q
      have h2 := (hcw p.1 p.2 hp1 hp2 hnz).1
      refine h2 ⟨by omega, ?_⟩
      rw [show p.1 - 1 = q.1 by omega, heq, hy]
  · intro hadj x y hx hy hnz
    constructor
    · rintro ⟨hxpos, heq⟩
      exact hadj (x, y) (x - 1, y) hx hy (by simp; omega) (by simpa using hy)
        (Or.inr ⟨rfl, Or.inr (by simp; omega)⟩) ⟨hnz, heq⟩
    · rintro ⟨hypos, heq⟩
      exact hadj (x, y) (x, y - 1) hx hy (by simpa using hx) (by simp; omega)
        (Or.inl ⟨rfl, Or.inr (by simp; omega)⟩) ⟨hnz, heq⟩

theorem calc_empty_iff (b : Board) (hw : WF b) (x y : Nat)
    (hx : x < b.w) (hy : y < b.h) :
    b.calc_component x y = [] ↔
      (b.cellAt x y = 0 ∨
        ∀ p ∈ neighborL b.w b.h x y, b.cellAt p.1 p.2 ≠ b.cellAt x y) := by
  have hcnt := erase_count_eq_calc_length b hw x y hx hy
  have hzero := erase_count_zero_iff b hw x y hx hy
  constructor
  · intro hempty
    have hz : (b.erase_component x y).2 = 0 := by
      rw [hcnt, hempty]
      rfl
    rcases hzero.mp hz with h0 | hcomp
    · exact Or.inl h0
    · by_cases h0 : b.cellAt x y = 0
      · exact Or.inl h0
      · exact Or.inr ((component_singleton_iff b x y hx hy h0).mp hcomp)
  · intro hiso
    have hz : (b.erase_component x y).2 = 0 := by
      apply hzero.mpr
      by_cases h0 : b.cellAt x y = 0
      · exact Or.inl h0
      · rcases hiso with h0' | hiso'
        · exact Or.inl h0'
        · exact Or.inr ((component_singleton_iff b x y hx hy h0).mpr hiso')
    rw [hcnt] at hz
    exact List.length_eq_zero.mp hz

theorem finished_iff_calc_empty (b : Board) (hw : WF b) :
    b.is_finished = true ↔ ∀ x y, x < b.w → y < b.h → b.calc_component x y = [] := by
  rw [finished_iff_adjacent]
  constructor
  · intro hadj x y hx hy
    rw [calc_empty_iff b hw x y hx hy]
    by_cases h0 : b.cellAt x y = 0
    · exact Or.inl h0
    · refine Or.inr (fun p hp habs => ?_)
      have hpb := neighbor_mem_bounds hx hy hp
      have hadjp : adjacentP (x, y) p := by
        rcases mem_neighborL.mp hp with ⟨hc, rfl⟩ | ⟨hc, rfl⟩ | ⟨hc, rfl⟩ | ⟨hc, rfl⟩
        · exact Or.inr ⟨rfl, Or.inr (by simp; omega)⟩
        · exact Or.inr ⟨rfl, Or.inl (by simp)⟩
        · exact Or.inl ⟨rfl, Or.inr (by simp; omega)⟩
        · exact Or.inl ⟨rfl, Or.inl (by simp)⟩
      exact hadj (x, y) p hx hy hpb.1 hpb.2 hadjp ⟨h0, habs.symm⟩
  · intro hempty p q hp1 hp2 hq1 hq2 hadj hand
    obtain ⟨hnz, heq⟩ := hand
    have hcalc := (calc_empty_iff b hw p.1 p.2 hp1 hp2).mp (hempty p.1 p.2 hp1 hp2)
    rcases hcalc with h0 | hiso
    · exact hnz h0
    · have hq : q ∈ neighborL b.w b.h p.1 p.2 := by
        apply mem_neighborL.mpr
        rcases hadj with ⟨hx, hv | hv⟩ | ⟨hy, hh | hh⟩
        · exact Or.inr (Or.inr (Or.inr ⟨by omega, Prod.ext_iff.mpr ⟨hx.symm, by omega⟩⟩))
        · exact Or.inr (Or.inr (Or.inl ⟨by omega, Prod.ext_iff.mpr ⟨hx.symm, by omega⟩⟩))
        · exact Or.inr (Or.inl ⟨by omega, Prod.ext_iff.mpr ⟨by omega, hy.symm⟩⟩)
        · exact Or.inl ⟨by omega, Prod.ext_iff.mpr ⟨by omega, hy.symm⟩⟩
      exact hiso q hq heq.symm

theorem finished_of_all_zero (b : Board) :
    (∀ x y, x < b.w → y < b.h → b.cellAt x y = 0) → b.is_finished = true := by
  intro hz
  rw [is_finished_iff_cellwise]
  intro x y hx hy hnz
  exact absurd (hz x y hx hy) hnz

/-! ### Shape of the packed output (invariant I2) -/

theorem colsOf_length (b : Board) : b.colsOf.length = b.w := chunksN_length b.w b.h b.cells

theorem packedCol_zero_mono (d : List Nat) (k k' : Nat) (hkk : k ≤ k')
    (hz : (packedCol d).getD k 0 = 0) : (packedCol d).getD k' 0 = 0 := by
  unfold packedCol at hz ⊢
  rcases Nat.lt_or_ge k (d.filter (fun v => v ≠ 0)).length with hk | hk
  · exfalso
    rw [List.getD_append _ _ _ _ hk, List.getD_eq_getElem _ _ hk] at hz
    have hmem := List.getElem_mem hk
    have := (List.mem_filter.mp hmem).2
    rw [hz] at this
    simp at this
  · rw [List.getD_append_right _ _ _ _ (Nat.le_trans hk hkk)]
    exact getD_replicate_self _ _ _

theorem cellAt_chunk (b : Board) (hw : WF b) (x y : Nat) (hx : x < b.w) (hy : y < b.h) :
    b.cellAt x y = ((b.colsOf).getD x []).getD (b.h - 1 - y) 0 := by
  unfold Board.cellAt Board.colsOf xy2idx_h
  rw [chunksN_getD b.h b.w x (b.h - 1 - y) b.cells hx (by omega) hw.2.2]

theorem pack_output_cases (b : Board) (hw : WF b) (x : Nat) (hx : x < b.w) :
    (x < (((b.colsOf).map packedCol).filter (fun (c : List Nat) => !(c.all (· = 0)))).length ∧
      (Board.pack_colwise (Board.pack_cellwise b)).colsOf.getD x [] =
        (((b.colsOf).map packedCol).filter (fun (c : List Nat) => !(c.all (· = 0)))).getD x []) ∨
    ((((b.colsOf).map packedCol).filter (fun (c : List Nat) => !(c.all (· = 0)))).length ≤ x ∧
      (Board.pack_colwise (Board.pack_cellwise b)).colsOf.getD x [] = List.replicate b.h 0) := by
  rw [pack_both_spec b hw]
  set F := ((b.colsOf).map packedCol).filter (fun (c : List Nat) => !(c.all (· = 0))) with hF
  have hfle : F.length ≤ b.w := by
    have h1 : F.length ≤ ((b.colsOf).map packedCol).length := by
      rw [hF]
      exact List.length_filter_le _ _
    have h2 : ((b.colsOf).map packedCol).length = b.w := by
      rw [List.length_map, colsOf_length]
    omega
  rcases Nat.lt_or_ge x F.length with hxF | hxF
  · left
    exact ⟨hxF, List.getD_append _ _ _ _ hxF⟩
  · right
    refine ⟨hxF, ?_⟩
    rw [List.getD_append_right _ _ _ _ hxF,
      List.getD_eq_getElem _ _ (by simp only [List.length_replicate]; omega)]
    simp

theorem filter_packed_mem (b : Board) (x : Nat)
    (hx : x < (((b.colsOf).map packedCol).filter (fun (c : List Nat) => !(c.all (· = 0)))).length) :
    ∃ d ∈ b.colsOf,
      (((b.colsOf).map packedCol).filter (fun (c : List Nat) => !(c.all (· = 0)))).getD x [] =
        packedCol d ∧
      ¬(((((b.colsOf).map packedCol).filter
          (fun (c : List Nat) => !(c.all (· = 0)))).getD x []).all (· = 0) = true) := by
  rw [List.getD_eq_getElem _ _ hx]
  have hmem := List.getElem_mem hx
  have hfil := List.mem_filter.mp hmem
  rcases List.mem_map.mp hfil.1 with ⟨d, hd, hdeq⟩
  refine ⟨d, hd, hdeq.symm, ?_⟩
  have := hfil.2
  simp only [Bool.not_eq_true'] at this
  simp [this]

theorem erase_I2 (b : Board) (hw : WF b) (x y : Nat)
    (hx : x < b.w) (hy : y < b.h) (hpos : 0 < (b.erase_component x y).2) :
    (∀ x' y1 y2, x' < b.w → y1 ≤ y2 → y2 < b.h →
      (b.erase_component x y).1.cellAt x' y2 = 0 →
      (b.erase_component x y).1.cellAt x' y1 = 0) ∧
    (∀ x1 x2, x1 ≤ x2 → x2 < b.w →
      allZeroCol (b.erase_component x y).1 x1 → allZeroCol (b.erase_component x y).1 x2) ∧
    (b.erase_component x y).1.colsOf =
      ((({ b with cells := (b.eraseRaw x y).1 } : Board).colsOf).map packedCol).filter
          (fun (c : List Nat) => !(c.all (· = 0))) ++
        List.replicate
          (b.w - (((({ b with cells := (b.eraseRaw x y).1 } : Board).colsOf).map
            packedCol).filter (fun (c : List Nat) => !(c.all (· = 0)))).length)
          (List.replicate b.h 0) := by
  by_cases h0 : b.cellAt x y = 0
  · rw [erase_component_zero b x y h0] at hpos
    simp at hpos
  · by_cases h1 : (b.eraseRaw x y).2 = 1
    · rw [erase_component_of_one b x y h0 h1] at hpos
      simp at hpos
    · set mid : Board := { b with cells := (b.eraseRaw x y).1 } with hmid
      have hmw : WF mid := mid_WF b hw x y
      have hcols := pack_both_spec mid hmw
      have hb2 : (b.erase_component x y).1 =
          Board.pack_colwise (Board.pack_cellwise mid) := by
        rw [erase_component_of_many b x y h0 h1]
      have hw2 : (b.erase_component x y).1.w = b.w := erase_w b x y
      have hh2 : (b.erase_component x y).1.h = b.h := erase_h b x y
      have hwf2 : WF (b.erase_component x y).1 := erase_WF b hw x y
      refine ⟨?_, ?_, ?_⟩
      · -- zeros are contiguous at the top of every column
        intro x' y1 y2 hx' h12 h2h hz2
        have hcell2 := cellAt_chunk (b.erase_component x y).1 hwf2 x' y2
          (by rw [hw2]; exact hx') (by rw [hh2]; omega)
        have hcell1 := cellAt_chunk (b.erase_component x y).1 hwf2 x' y1
          (by rw [hw2]; exact hx') (by rw [hh2]; omega)
        rw [hcell2] at hz2
        rw [hcell1]
        have hcases := pack_output_cases mid hmw x' (by exact hx')
        rw [← hb2] at hcases
        rcases hcases with ⟨hlt, hchunk⟩ | ⟨hge, hchunk⟩
        · rcases filter_packed_mem mid x' hlt with ⟨d, hd, hdeq, _⟩
          rw [hchunk, hdeq] at hz2 ⊢
          exact packedCol_zero_mono d _ _ (by rw [hh2]; omega) hz2
        · rw [hchunk] at hz2 ⊢
          exact getD_replicate_self _ _ _
      · -- no empty column to the left of a non-empty one
        intro x1 x2 h12 hx2 hzc
        have hx1 : x1 < b.w := by omega
        have hnotlt : ¬(x1 < (((mid.colsOf).map packedCol).filter
            (fun (c : List Nat) => !(c.all (· = 0)))).length) := by
          intro hlt
          have hcases := pack_output_cases mid hmw x1 hx1
          rw [← hb2] at hcases
          rcases hcases with ⟨_, hchunk⟩ | ⟨hge, _⟩
          · rcases filter_packed_mem mid x1 hlt with ⟨d, hd, hdeq, hnall⟩
            rw [hdeq] at hnall
            have hex : ∃ a ∈ packedCol d, ¬(a = 0) := by
              by_contra hno
              push_neg at hno
              exact hnall (List.all_eq_true.mpr (fun a ha => by
                simp [hno a ha]))
            rcases hex with ⟨a, ha, hanz⟩
            rcases List.mem_iff_getElem.mp ha with ⟨i, hi, hieq⟩
            have hdlen : d.length = b.h := chunksN_mem_length mid.w mid.h mid.cells
              hmw.2.2 d hd
            have hplen : (packedCol d).length = b.h := by
              rw [packedCol_length b.h d hdlen]
            have hih : i < b.h := by rw [← hplen]; exact hi
            have := hzc (b.h - 1 - i) (by rw [hh2]; omega)
            have hcell := cellAt_chunk (b.erase_component x y).1 hwf2 x1 (b.h - 1 - i)
              (by rw [hw2]; exact hx1) (by rw [hh2]; omega)
            rw [hcell, hchunk, hdeq] at this
            rw [hh2] at this
            rw [show b.h - 1 - (b.h - 1 - i) = i by omega] at this
            rw [List.getD_eq_getElem _ _ (by rw [hplen]; exact hih), hieq] at this
            exact hanz this
          · omega
        have hge2 : (((mid.colsOf).map packedCol).filter
            (fun (c : List Nat) => !(c.all (· = 0)))).length ≤ x2 := by omega
        have hcases := pack_output_cases mid hmw x2 hx2
        rw [← hb2] at hcases
        rcases hcases with ⟨hlt, _⟩ | ⟨_, hchunk⟩
        · omega
        · intro y' hy'
          rw [hh2] at hy'
          have hcell := cellAt_chunk (b.erase_component x y).1 hwf2 x2 y'
            (by rw [hw2]; exact hx2) (by rw [hh2]; exact hy')
          rw [hcell, hchunk]
          exact getD_replicate_self _ _ _
      · rw [hb2]
        exact hcols

/-! ### Characterization of `parse` -/

theorem xy2idx_ne_row {h r r' c c' : Nat} (hr : r < h) (hr' : r' < h) (hne : r ≠ r') :
    xy2idx_h h c r ≠ xy2idx_h h c' r' := by
  unfold xy2idx_h
  intro heq
  have h1 : (h * c + (h - 1 - r)) % h = (h - 1 - r) := by
    rw [Nat.mul_add_mod]
    exact Nat.mod_eq_of_lt (by omega)
  have h2 : (h * c' + (h - 1 - r')) % h = (h - 1 - r') := by
    rw [Nat.mul_add_mod]
    exact Nat.mod_eq_of_lt (by omega)
  rw [heq] at h1
  rw [h1] at h2
  omega

theorem xy2idx_ne_col {h r c c' : Nat} (hh : 0 < h) (hne : c ≠ c') :
    xy2idx_h h c r ≠ xy2idx_h h c' r := by
  unfold xy2idx_h
  intro heq
  have : h * c = h * c' := by omega
  exact hne (Nat.eq_of_mul_eq_mul_left hh this)

theorem writeChars_spec (h r : Nat) (hr : r < h) :
    ∀ (cs : List Char) (x0 : Nat) (cells cells' : List Nat),
      writeChars h r x0 cs cells = .ok cells' →
      cells'.length = cells.length ∧
      (∀ i, (∀ k, k < cs.length → i ≠ xy2idx_h h (x0 + k) r) →
        cells'.getD i 0 = cells.getD i 0) ∧
      (∀ k, k < cs.length →
        cells'.getD (xy2idx_h h (x0 + k) r) 0 = charDigit (cs.getD k ' ')) := by
  intro cs
  induction cs with
  | nil =>
    intro x0 cells cells' hok
    simp only [writeChars] at hok
    cases hok
    exact ⟨rfl, fun i _ => rfl, fun k hk => by simp at hk⟩
  | cons c cs ih =>
    intro x0 cells cells' hok
    simp only [writeChars] at hok
    split at hok
    case isFalse => cases hok
    case isTrue hvalid =>
      split at hok
      case isFalse => cases hok
      case isTrue hbound =>
        obtain ⟨hlen, huntouched, hwritten⟩ := ih (x0 + 1) _ _ hok
        have hposh : 0 < h := by omega
        refine ⟨by rw [hlen, List.length_set], ?_, ?_⟩
        · intro i hno
          rw [huntouched i (fun k hk => by
            have := hno (k + 1) (by simpa using hk)
            rw [show x0 + (k + 1) = x0 + 1 + k by omega] at this
            exact this)]
          exact getD_set_ne_nat cells _ i _ 0
            (fun heq => hno 0 (by simp) (by rw [Nat.add_zero]; exact heq.symm))
        · intro k hk
          cases k with
          | zero =>
            rw [Nat.add_zero]
            rw [huntouched (xy2idx_h h x0 r) (fun k hk => by
              rw [show x0 + 1 + k = x0 + (k + 1) by omega]
              exact xy2idx_ne_col hposh (by omega))]
            rw [getD_set_self_nat cells _ _ 0 hbound]
            rfl
          | succ m =>
            have := hwritten m (by simpa using hk)
            rw [show x0 + (m + 1) = x0 + 1 + m by omega]
            exact this

theorem writeChars_ok (h r : Nat) :
    ∀ (cs : List Char) (x0 : Nat) (cells : List Nat),
      (∀ c ∈ cs, '0' ≤ c ∧ c ≤ '5') →
      (∀ k, k < cs.length → xy2idx_h h (x0 + k) r < cells.length) →
      ∃ cells', writeChars h r x0 cs cells = .ok cells' := by
  intro cs
  induction cs with
  | nil => intro x0 cells _ _; exact ⟨cells, rfl⟩
  | cons c cs ih =>
    intro x0 cells hvalid hbound
    simp only [writeChars]
    rw [if_pos (hvalid c (List.mem_cons_self _ _))]
    rw [if_pos (by
      have := hbound 0 (by simp)
      rwa [Nat.add_zero] at this)]
    exact ih (x0 + 1) _ (fun d hd => hvalid d (List.mem_cons_of_mem _ hd))
      (fun k hk => by
        rw [List.length_set, show x0 + 1 + k = x0 + (k + 1) by omega]
        exact hbound (k + 1) (by simpa using hk))

theorem parseRows_spec (h : Nat) :
    ∀ (n r : Nat) (lines : List String) (cells cells' : List Nat),
      r + n ≤ h →
      parseRows h n r lines cells = .ok cells' →
      cells'.length = cells.length ∧
      (∀ rr c, r ≤ rr → rr < r + n →
        cells'.getD (xy2idx_h h c rr) 0 =
          if c < ((lines.getD (rr - r) "").toList).length then
            charDigit (((lines.getD (rr - r) "").toList).getD c ' ')
          else cells.getD (xy2idx_h h c rr) 0) ∧
      (∀ rr c, rr < h → (rr < r ∨ r + n ≤ rr) →
        cells'.getD (xy2idx_h h c rr) 0 = cells.getD (xy2idx_h h c rr) 0) := by
  intro n
  induction n with
  | zero =>
    intro r lines cells cells' hrn hok
    simp only [parseRows] at hok
    cases hok
    exact ⟨rfl, fun rr c h1 h2 => by omega, fun rr c _ _ => rfl⟩
  | succ n ih =>
    intro r lines cells cells' hrn hok
    cases lines with
    | nil => simp [parseRows] at hok
    | cons l rest =>
      simp only [parseRows] at hok
      cases hw1 : writeChars h r 0 l.toList cells with
      | error e =>
        rw [hw1] at hok
        exact Except.noConfusion hok
      | ok cells1 =>
        rw [hw1] at hok
        have hok : parseRows h n (r + 1) rest cells1 = .ok cells' := hok
        have hr : r < h := by omega
        obtain ⟨wlen, wuntouched, wwritten⟩ := writeChars_spec h r hr l.toList 0 cells cells1 hw1
        obtain ⟨rlen, rwrt, runt⟩ := ih (r + 1) rest cells1 cells' (by omega) hok
        have hposh : 0 < h := by omega
        refine ⟨by rw [rlen, wlen], ?_, ?_⟩
        · intro rr c h1 h2
          rcases Nat.eq_or_lt_of_le h1 with rfl | hlt
          · -- the row written in this step
            rw [show r - r = 0 by omega]
            simp only [List.getD_cons_zero]
            have hc' := runt r c hr (Or.inl (by omega))
            rw [hc']
            by_cases hcl : c < l.toList.length
            · rw [if_pos hcl]
              have := wwritten c hcl
              rw [Nat.zero_add] at this
              exact this
            · rw [if_neg hcl]
              exact wuntouched _ (fun k hk => by
                rw [Nat.zero_add]
                exact xy2idx_ne_col hposh (by omega))
          · -- a later row
            have := rwrt rr c (by omega) (by omega)
            rw [show rr - r = (rr - (r + 1)) + 1 by omega]
            simp only [List.getD_cons_succ]
            rw [this]
            by_cases hcl : c < ((rest.getD (rr - (r + 1)) "").toList).length
            · rw [if_pos hcl, if_pos hcl]
            · rw [if_neg hcl, if_neg hcl]
              exact wuntouched _ (fun k hk => by
                rw [Nat.zero_add]
                exact xy2idx_ne_row (by omega) hr (by omega))
        · intro rr c hrrh hout
          have := runt rr c hrrh (by omega)
          rw [this]
          exact wuntouched _ (fun k hk => by
            rw [Nat.zero_add]
            exact xy2idx_ne_row hrrh hr (by omega))

theorem parseRows_ok (w h : Nat) (hw : 0 < w) :
    ∀ (n r : Nat) (lines : List String) (cells : List Nat),
      cells.length = w * h → r + n ≤ h → n ≤ lines.length →
      (∀ j, j < n → (∀ ch ∈ (lines.getD j "").toList, '0' ≤ ch ∧ ch ≤ '5') ∧
        (lines.getD j "").toList.length ≤ w) →
      ∃ cells', parseRows h n r lines cells = .ok cells' := by
  intro n
  induction n with
  | zero => intro r lines cells _ _ _ _; exact ⟨cells, rfl⟩
  | succ n ih =>
    intro r lines cells hclen hrn hnl hvalid
    cases lines with
    | nil => simp at hnl
    | cons l rest =>
      have hv0 := hvalid 0 (by omega)
      simp only [List.getD_cons_zero] at hv0
      have hr : r < h := by omega
      obtain ⟨cells1, hw1⟩ := writeChars_ok h r l.toList 0 cells hv0.1
        (fun k hk => by
          rw [Nat.zero_add, hclen]
          exact xy2idx_lt (by omega) hr)
      have hlen1 : cells1.length = w * h := by
        rw [(writeChars_spec h r hr l.toList 0 cells cells1 hw1).1, hclen]
      obtain ⟨cells', hok⟩ := ih (r + 1) rest cells1 hlen1 (by omega)
        (by simpa using hnl)
        (fun j hj => by
          have := hvalid (j + 1) (by omega)
          simpa using this)
      refine ⟨cells', ?_⟩
      simp only [parseRows]
      rw [hw1]
      exact hok

theorem parseRows_take (h : Nat) :
    ∀ (n r : Nat) (lines : List String) (cells : List Nat),
      parseRows h n r lines cells = parseRows h n r (lines.take n) cells := by
  intro n
  induction n with
  | zero => intro r lines cells; rfl
  | succ n ih =>
    intro r lines cells
    cases lines with
    | nil => rfl
    | cons l rest =>
      simp only [List.take_succ_cons, parseRows]
      cases hw1 : writeChars h r 0 l.toList cells with
      | error e => rfl
      | ok cells1 => exact ih (r + 1) rest cells1

theorem parse_ok_inv (input : List String) (bd : Board) (hok : parse input = .ok bd) :
    parseHeader (input.headD "") = .ok (bd.w, bd.h) ∧ 0 < bd.w ∧ 0 < bd.h ∧
      parseRows bd.h bd.h 0 (input.drop 1) (List.replicate (bd.w * bd.h) 0) =
        .ok bd.cells := by
  unfold parse at hok
  cases hh : parseHeader (input.headD "") with
  | error e =>
    rw [hh] at hok
    exact Except.noConfusion hok
  | ok wh =>
    rw [hh] at hok
    have hok : (if 0 < wh.1 then
        if 0 < wh.2 then do
          let cells ← parseRows wh.2 wh.2 0 (input.drop 1)
            (List.replicate (wh.1 * wh.2) 0)
          pure (⟨wh.1, wh.2, cells⟩ : Board)
        else Except.error PErr.fmt
      else Except.error PErr.fmt) = .ok bd := hok
    split at hok
    case isFalse => exact Except.noConfusion hok
    case isTrue hw1 =>
      split at hok
      case isFalse => exact Except.noConfusion hok
      case isTrue hh1 =>
        cases hrows : parseRows wh.2 wh.2 0 (input.drop 1)
            (List.replicate (wh.1 * wh.2) 0) with
        | error e =>
          rw [hrows] at hok
          exact Except.noConfusion hok
        | ok cells =>
          rw [hrows] at hok
          have hok : Except.ok (⟨wh.1, wh.2, cells⟩ : Board) = .ok bd := hok
          have hbd : bd = ⟨wh.1, wh.2, cells⟩ := (Except.ok.inj hok).symm
          subst hbd
          exact ⟨rfl, hw1, hh1, hrows⟩

theorem parse_ok_build (hd : String) (ds : List String) (w h : Nat)
    (hh : parseHeader hd = .ok (w, h)) (hw : 0 < w) (hh1 : 0 < h)
    (hds : h ≤ ds.length)
    (hvalid : ∀ j, j < h → (∀ ch ∈ (ds.getD j "").toList, '0' ≤ ch ∧ ch ≤ '5') ∧
      (ds.getD j "").toList.length ≤ w) :
    ∃ bd, parse (hd :: ds) = .ok bd ∧ bd.w = w ∧ bd.h = h := by
  obtain ⟨cells, hrows⟩ := parseRows_ok w h hw h 0 ds (List.replicate (w * h) 0)
    (by simp) (by omega) hds hvalid
  refine ⟨⟨w, h, cells⟩, ?_, rfl, rfl⟩
  unfold parse
  have hhd : (hd :: ds).headD "" = hd := rfl
  rw [hhd, hh]
  show (if 0 < w then
      if 0 < h then do
        let cells ← parseRows h h 0 ds (List.replicate (w * h) 0)
        pure (⟨w, h, cells⟩ : Board)
      else Except.error PErr.fmt
    else Except.error PErr.fmt) = _
  rw [if_pos hw, if_pos hh1, hrows]
  rfl

theorem parse_ignores_extra_lines (hd : String) (ds : List String) (w h : Nat)
    (hh : parseHeader hd = .ok (w, h)) :
    parse (hd :: ds) = parse (hd :: ds.take h) := by
  unfold parse
  have h1 : (hd :: ds).headD "" = hd := rfl
  have h2 : (hd :: ds.take h).headD "" = hd := rfl
  rw [h1, h2, hh]
  show (if 0 < w then
      if 0 < h then do
        let cells ← parseRows h h 0 ds (List.replicate (w * h) 0)
        pure (⟨w, h, cells⟩ : Board)
      else Except.error PErr.fmt
    else Except.error PErr.fmt) =
    (if 0 < w then
      if 0 < h then do
        let cells ← parseRows h h 0 (ds.take h) (List.replicate (w * h) 0)
        pure (⟨w, h, cells⟩ : Board)
      else Except.error PErr.fmt
    else Except.error PErr.fmt)
  rw [parseRows_take h h 0 ds]

theorem parse_cellAt (input : List String) (bd : Board) (hok : parse input = .ok bd)
    (r c : Nat) (hr : r < bd.h) (hc : c < bd.w) :
    bd.cellAt c r =
      if c < ((input.drop 1).getD r "").toList.length then
        charDigit (((input.drop 1).getD r "").toList.getD c ' ')
      else 0 := by
  obtain ⟨hh, hw1, hh1, hrows⟩ := parse_ok_inv input bd hok
  obtain ⟨_, hwrt, _⟩ := parseRows_spec bd.h bd.h 0 (input.drop 1)
    (List.replicate (bd.w * bd.h) 0) bd.cells (by omega) hrows
  have := hwrt r c (by omega) (by omega)
  rw [show r - 0 = r by omega] at this
  show bd.cells.getD (xy2idx_h bd.h c r) 0 = _
  rw [this]
  by_cases hcl : c < ((input.drop 1).getD r "").toList.length
  · rw [if_pos hcl, if_pos hcl]
  · rw [if_neg hcl, if_neg hcl]
    exact getD_replicate_self _ _ _

/-! ### The claims -/

/-- Claim C1: on the 4×3 board parsed from header `4 3` and rows `2102`,
`1154`, `5135` (top row first): `calc_component(0,0)` is empty;
`calc_component(0,1)` as a set is `{(0,1),(1,0),(1,1),(1,2)}`;
`is_finished()` is false; `erase_component(0,0)` and `erase_component(3,0)`
return 0; `erase_component(1,1)` returns 4; afterwards the flat buffer
(column-major, bottom-to-top within each column) is
`[5,2,0,3,5,0,5,4,2,0,0,0]` and `is_finished()` is true. -/
theorem claim_C1 :
    parse ["4 3", "2102", "1154", "5135"] =
      .ok (Board.mk 4 3 [5, 1, 2, 1, 1, 1, 3, 5, 0, 5, 4, 2]) ∧
    (Board.mk 4 3 [5, 1, 2, 1, 1, 1, 3, 5, 0, 5, 4, 2]).calc_component 0 0 = [] ∧
    ((Board.mk 4 3 [5, 1, 2, 1, 1, 1, 3, 5, 0, 5, 4, 2]).calc_component 0 1).toFinset =
      ({(0, 1), (1, 0), (1, 1), (1, 2)} : Finset (Nat × Nat)) ∧
    (Board.mk 4 3 [5, 1, 2, 1, 1, 1, 3, 5, 0, 5, 4, 2]).is_finished = false ∧
    ((Board.mk 4 3 [5, 1, 2, 1, 1, 1, 3, 5, 0, 5, 4, 2]).erase_component 0 0).2 = 0 ∧
    (((Board.mk 4 3 [5, 1, 2, 1, 1, 1, 3, 5, 0, 5, 4, 2]).erase_component 0 0).1.erase_component
      3 0).2 = 0 ∧
    ((((Board.mk 4 3 [5, 1, 2, 1, 1, 1, 3, 5, 0, 5, 4, 2]).erase_component 0 0).1.erase_component
      3 0).1.erase_component 1 1).2 = 4 ∧
    ((((Board.mk 4 3 [5, 1, 2, 1, 1, 1, 3, 5, 0, 5, 4, 2]).erase_component 0 0).1.erase_component
      3 0).1.erase_component 1 1).1.cells = [5, 2, 0, 3, 5, 0, 5, 4, 2, 0, 0, 0] ∧
    ((((Board.mk 4 3 [5, 1, 2, 1, 1, 1, 3, 5, 0, 5, 4, 2]).erase_component 0 0).1.erase_component
      3 0).1.erase_component 1 1).1.is_finished = true := by
  decide

/-- Claim C2: after any successful (positive-count) `erase_component`, the
board satisfies invariant I2: in every column the empty cells are contiguous
at the top end (the end gravity vacates, i.e. low `y`), the nonzero cells are
packed together at the other end in their original relative order, and the
non-empty columns form a contiguous run starting at `x = 0` in their original
relative order (the order equation against the mid-erase board captures both
order-preservation statements). -/
theorem claim_C2 (b : Board) (x y : Nat) (hw : WF b) (hx : x < b.w) (hy : y < b.h)
    (hpos : 0 < (b.erase_component x y).2) :
    (∀ x' y1 y2, x' < b.w → y1 ≤ y2 → y2 < b.h →
      (b.erase_component x y).1.cellAt x' y2 = 0 →
      (b.erase_component x y).1.cellAt x' y1 = 0) ∧
    (∀ x1 x2, x1 ≤ x2 → x2 < b.w →
      allZeroCol (b.erase_component x y).1 x1 → allZeroCol (b.erase_component x y).1 x2) ∧
    (b.erase_component x y).1.colsOf =
      ((({ b with cells := (b.eraseRaw x y).1 } : Board).colsOf).map packedCol).filter
          (fun (c : List Nat) => !(c.all (· = 0))) ++
        List.replicate
          (b.w - (((({ b with cells := (b.eraseRaw x y).1 } : Board).colsOf).map
            packedCol).filter (fun (c : List Nat) => !(c.all (· = 0)))).length)
          (List.replicate b.h 0) :=
  erase_I2 b hw x y hx hy hpos

theorem c2_witness :
    WF (Board.mk 4 3 [5, 1, 2, 1, 1, 1, 3, 5, 0, 5, 4, 2]) ∧
    0 < ((Board.mk 4 3 [5, 1, 2, 1, 1, 1, 3, 5, 0, 5, 4, 2]).erase_component 1 1).2 ∧
    ((∀ x' y1 y2, x' < (Board.mk 4 3 [5, 1, 2, 1, 1, 1, 3, 5, 0, 5, 4, 2]).w → y1 ≤ y2 →
      y2 < (Board.mk 4 3 [5, 1, 2, 1, 1, 1, 3, 5, 0, 5, 4, 2]).h →
      ((Board.mk 4 3 [5, 1, 2, 1, 1, 1, 3, 5, 0, 5, 4, 2]).erase_component 1 1).1.cellAt x' y2 = 0 →
      ((Board.mk 4 3 [5, 1, 2, 1, 1, 1, 3, 5, 0, 5, 4, 2]).erase_component 1 1).1.cellAt x' y1 = 0) ∧
    (∀ x1 x2, x1 ≤ x2 → x2 < (Board.mk 4 3 [5, 1, 2, 1, 1, 1, 3, 5, 0, 5, 4, 2]).w →
      allZeroCol ((Board.mk 4 3 [5, 1, 2, 1, 1, 1, 3, 5, 0, 5, 4, 2]).erase_component 1 1).1 x1 →
      allZeroCol ((Board.mk 4 3 [5, 1, 2, 1, 1, 1, 3, 5, 0, 5, 4, 2]).erase_component 1 1).1 x2) ∧
    ((Board.mk 4 3 [5, 1, 2, 1, 1, 1, 3, 5, 0, 5, 4, 2]).erase_component 1 1).1.colsOf =
      ((({ Board.mk 4 3 [5, 1, 2, 1, 1, 1, 3, 5, 0, 5, 4, 2] with
          cells := ((Board.mk 4 3 [5, 1, 2, 1, 1, 1, 3, 5, 0, 5, 4, 2]).eraseRaw 1 1).1 } :
          Board).colsOf).map packedCol).filter
          (fun (c : List Nat) => !(c.all (· = 0))) ++
        List.replicate
          ((Board.mk 4 3 [5, 1, 2, 1, 1, 1, 3, 5, 0, 5, 4, 2]).w -
            (((({ Board.mk 4 3 [5, 1, 2, 1, 1, 1, 3, 5, 0, 5, 4, 2] with
              cells := ((Board.mk 4 3 [5, 1, 2, 1, 1, 1, 3, 5, 0, 5, 4, 2]).eraseRaw 1 1).1 } :
              Board).colsOf).map packedCol).filter
              (fun (c : List Nat) => !(c.all (· = 0)))).length)
          (List.replicate (Board.mk 4 3 [5, 1, 2, 1, 1, 1, 3, 5, 0, 5, 4, 2]).h 0)) :=
  ⟨by decide, by decide,
    claim_C2 (Board.mk 4 3 [5, 1, 2, 1, 1, 1, 3, 5, 0, 5, 4, 2]) 1 1
      (by decide) (by decide) (by decide) (by decide)⟩

/-- Claim C3: for every board and in-bounds coordinate, the count returned by
`erase_component` equals the size of the list returned by `calc_component` on
the pre-call state, and both report 0 exactly when the cell is empty or its
maximal same-colored orthogonally-connected group is the singleton. -/
theorem claim_C3 (b : Board) (x y : Nat) (hw : WF b) (hx : x < b.w) (hy : y < b.h) :
    (b.erase_component x y).2 = (b.calc_component x y).length ∧
    ((b.erase_component x y).2 = 0 ↔
      (b.cellAt x y = 0 ∨ component b (x, y) = {(x, y)})) :=
  ⟨erase_count_eq_calc_length b hw x y hx hy, erase_count_zero_iff b hw x y hx hy⟩

theorem c3_witness :
    ((Board.mk 4 3 [5, 1, 2, 1, 1, 1, 3, 5, 0, 5, 4, 2]).erase_component 1 1).2 =
      ((Board.mk 4 3 [5, 1, 2, 1, 1, 1, 3, 5, 0, 5, 4, 2]).calc_component 1 1).length ∧
    (((Board.mk 4 3 [5, 1, 2, 1, 1, 1, 3, 5, 0, 5, 4, 2]).erase_component 1 1).2 = 0 ↔
      ((Board.mk 4 3 [5, 1, 2, 1, 1, 1, 3, 5, 0, 5, 4, 2]).cellAt 1 1 = 0 ∨
        component (Board.mk 4 3 [5, 1, 2, 1, 1, 1, 3, 5, 0, 5, 4, 2]) (1, 1) = {(1, 1)})) :=
  claim_C3 (Board.mk 4 3 [5, 1, 2, 1, 1, 1, 3, 5, 0, 5, 4, 2]) 1 1
    (by decide) (by decide) (by decide)

/-- Claim C4: if the cell is empty or its maximal group is the singleton,
`erase_component` returns 0 and leaves the cell buffer byte-for-byte
unchanged; more generally a 0 return means no mutation at all, and a positive
return means the removal plus both compaction passes ran to completion. -/
theorem claim_C4 (b : Board) (x y : Nat) (hw : WF b) (hx : x < b.w) (hy : y < b.h) :
    ((b.cellAt x y = 0 ∨ component b (x, y) = {(x, y)}) →
      (b.erase_component x y).2 = 0 ∧ (b.erase_component x y).1.cells = b.cells) ∧
    ((b.erase_component x y).2 = 0 → (b.erase_component x y).1.cells = b.cells) ∧
    (0 < (b.erase_component x y).2 →
      (b.erase_component x y).1 =
        Board.pack_colwise (Board.pack_cellwise
          { b with cells := (b.eraseRaw x y).1 })) := by
  refine ⟨?_, ?_, ?_⟩
  · intro hsing
    have hz : (b.erase_component x y).2 = 0 :=
      (erase_count_zero_iff b hw x y hx hy).mpr hsing
    exact ⟨hz, by rw [erase_unchanged_of_zero b hw x y hx hy hz]⟩
  · intro hz
    rw [erase_unchanged_of_zero b hw x y hx hy hz]
  · intro hpos
    by_cases h0 : b.cellAt x y = 0
    · rw [erase_component_zero b x y h0] at hpos
      simp at hpos
    · by_cases h1 : (b.eraseRaw x y).2 = 1
      · rw [erase_component_of_one b x y h0 h1] at hpos
        simp at hpos
      · rw [erase_component_of_many b x y h0 h1]

theorem c4_witness :
    (((Board.mk 4 3 [5, 1, 2, 1, 1, 1, 3, 5, 0, 5, 4, 2]).cellAt 2 0 = 0 ∨
      component (Board.mk 4 3 [5, 1, 2, 1, 1, 1, 3, 5, 0, 5, 4, 2]) (2, 0) = {(2, 0)}) →
      ((Board.mk 4 3 [5, 1, 2, 1, 1, 1, 3, 5, 0, 5, 4, 2]).erase_component 2 0).2 = 0 ∧
      ((Board.mk 4 3 [5, 1, 2, 1, 1, 1, 3, 5, 0, 5, 4, 2]).erase_component 2 0).1.cells =
        (Board.mk 4 3 [5, 1, 2, 1, 1, 1, 3, 5, 0, 5, 4, 2]).cells) ∧
    (((Board.mk 4 3 [5, 1, 2, 1, 1, 1, 3, 5, 0, 5, 4, 2]).erase_component 2 0).2 = 0 →
      ((Board.mk 4 3 [5, 1, 2, 1, 1, 1, 3, 5, 0, 5, 4, 2]).erase_component 2 0).1.cells =
        (Board.mk 4 3 [5, 1, 2, 1, 1, 1, 3, 5, 0, 5, 4, 2]).cells) ∧
    (0 < ((Board.mk 4 3 [5, 1, 2, 1, 1, 1, 3, 5, 0, 5, 4, 2]).erase_component 2 0).2 →
      ((Board.mk 4 3 [5, 1, 2, 1, 1, 1, 3, 5, 0, 5, 4, 2]).erase_component 2 0).1 =
        Board.pack_colwise (Board.pack_cellwise
          { Board.mk 4 3 [5, 1, 2, 1, 1, 1, 3, 5, 0, 5, 4, 2] with
            cells := ((Board.mk 4 3 [5, 1, 2, 1, 1, 1, 3, 5, 0, 5, 4, 2]).eraseRaw 2 0).1 })) :=
  claim_C4 (Board.mk 4 3 [5, 1, 2, 1, 1, 1, 3, 5, 0, 5, 4, 2]) 2 0
    (by decide) (by decide) (by decide)

/-- Claim C5: `is_finished` returns true iff no two orthogonally adjacent
cells hold the same nonzero color, equivalently iff `calc_component` is empty
at every in-bounds cell; in particular it returns true on a fully empty
board. -/
theorem claim_C5 (b : Board) (hw : WF b) :
    (b.is_finished = true ↔
      ∀ p q : Nat × Nat, p.1 < b.w → p.2 < b.h → q.1 < b.w → q.2 < b.h →
        adjacentP p q → ¬(b.cellAt p.1 p.2 ≠ 0 ∧ b.cellAt p.1 p.2 = b.cellAt q.1 q.2)) ∧
    (b.is_finished = true ↔ ∀ x y, x < b.w → y < b.h → b.calc_component x y = []) ∧
    ((∀ x y, x < b.w → y < b.h → b.cellAt x y = 0) → b.is_finished = true) :=
  ⟨finished_iff_adjacent b, finished_iff_calc_empty b hw, finished_of_all_zero b⟩

theorem c5_witness :
    ((Board.mk 4 3 [5, 1, 2, 1, 1, 1, 3, 5, 0, 5, 4, 2]).is_finished = true ↔
      ∀ p q : Nat × Nat, p.1 < (Board.mk 4 3 [5, 1, 2, 1, 1, 1, 3, 5, 0, 5, 4, 2]).w →
        p.2 < (Board.mk 4 3 [5, 1, 2, 1, 1, 1, 3, 5, 0, 5, 4, 2]).h →
        q.1 < (Board.mk 4 3 [5, 1, 2, 1, 1, 1, 3, 5, 0, 5, 4, 2]).w →
        q.2 < (Board.mk 4 3 [5, 1, 2, 1, 1, 1, 3, 5, 0, 5, 4, 2]).h →
        adjacentP p q →
        ¬((Board.mk 4 3 [5, 1, 2, 1, 1, 1, 3, 5, 0, 5, 4, 2]).cellAt p.1 p.2 ≠ 0 ∧
          (Board.mk 4 3 [5, 1, 2, 1, 1, 1, 3, 5, 0, 5, 4, 2]).cellAt p.1 p.2 =
            (Board.mk 4 3 [5, 1, 2, 1, 1, 1, 3, 5, 0, 5, 4, 2]).cellAt q.1 q.2)) ∧
    ((Board.mk 4 3 [5, 1, 2, 1, 1, 1, 3, 5, 0, 5, 4, 2]).is_finished = true ↔
      ∀ x y, x < (Board.mk 4 3 [5, 1, 2, 1, 1, 1, 3, 5, 0, 5, 4, 2]).w →
        y < (Board.mk 4 3 [5, 1, 2, 1, 1, 1, 3, 5, 0, 5, 4, 2]).h →
        (Board.mk 4 3 [5, 1, 2, 1, 1, 1, 3, 5, 0, 5, 4, 2]).calc_component x y = []) ∧
    ((∀ x y, x < (Board.mk 4 3 [5, 1, 2, 1, 1, 1, 3, 5, 0, 5, 4, 2]).w →
        y < (Board.mk 4 3 [5, 1, 2, 1, 1, 1, 3, 5, 0, 5, 4, 2]).h →
        (Board.mk 4 3 [5, 1, 2, 1, 1, 1, 3, 5, 0, 5, 4, 2]).cellAt x y = 0) →
      (Board.mk 4 3 [5, 1, 2, 1, 1, 1, 3, 5, 0, 5, 4, 2]).is_finished = true) :=
  claim_C5 (Board.mk 4 3 [5, 1, 2, 1, 1, 1, 3, 5, 0, 5, 4, 2]) (by decide)

/-- Claim C6 counterexample: the input `1 2` / `0` / `1` is accepted, yet the
character of text row `r = 0` (the digit `0`) is NOT stored at
`(x = 0, y = height - 1 - 0) = (0, 1)`: that cell holds `1` (the digit of
text row 1).  The source stores text row `r` at grid row `y = r`, not
`y = height - 1 - r`. -/
theorem c6_counterexample :
    parse ["1 2", "0", "1"] = .ok (Board.mk 1 2 [1, 0]) ∧
    charDigit (("0".toList).getD 0 ' ') = 0 ∧
    (Board.mk 1 2 [1, 0]).cellAt 0 (2 - 1 - 0) = 1 ∧
    (1 : Nat) ≠ 0 := by
  decide

/-- Claim C6 (amended): for every accepted input, the character at text data
row `r` (0-indexed from the top) and column `c` is stored at grid coordinate
`(x = c, y = r)`: `at(c, r)` equals that character's digit value. -/
theorem claim_C6_amended (input : List String) (bd : Board)
    (hok : parse input = .ok bd) (r c : Nat) (hr : r < bd.h) (hc : c < bd.w)
    (hcl : c < ((input.drop 1).getD r "").toList.length) :
    bd.cellAt c r = charDigit (((input.drop 1).getD r "").toList.getD c ' ') := by
  rw [parse_cellAt input bd hok r c hr hc, if_pos hcl]

theorem c6_witness :
    (Board.mk 4 3 [5, 1, 2, 1, 1, 1, 3, 5, 0, 5, 4, 2]).cellAt 0 0 =
      charDigit ((((["4 3", "2102", "1154", "5135"] : List String).drop 1).getD 0
        "").toList.getD 0 ' ') :=
  claim_C6_amended ["4 3", "2102", "1154", "5135"]
    (Board.mk 4 3 [5, 1, 2, 1, 1, 1, 3, 5, 0, 5, 4, 2]) (by decide) 0 0
    (by decide) (by decide) (by decide)

/-- Claim C7 counterexample: the header `1 1` is valid and the data line `23`
starts with the one valid digit `2` required by the declared width, yet the
extra trailing character is not ignored: writing it indexes past the buffer
(the panic of `cells[i] = …`), so `parse` fails instead of succeeding. -/
theorem c7_counterexample :
    parseHeader "1 1" = .ok (1, 1) ∧
    ("23".toList.getD 0 ' ') = '2' ∧ ('0' ≤ '2' ∧ '2' ≤ '5') ∧
    parse ["1 1", "23"] = .error PErr.oob := by
  decide

/-- Claim C7 (amended): when the header is valid and each of the first
`height` data lines consists of valid digit characters and has at most
`width` of them, `parse` succeeds; data lines beyond the declared height are
ignored and do not affect the result.  (Extra trailing characters on a data
line are NOT ignored: they are validated, and a valid digit beyond the
declared width makes the write index past the buffer, an out-of-bounds
panic.) -/
theorem claim_C7_amended (hd : String) (ds : List String) (w h : Nat)
    (hh : parseHeader hd = .ok (w, h)) (hw : 0 < w) (hh1 : 0 < h)
    (hds : h ≤ ds.length)
    (hvalid : ∀ j, j < h → (∀ ch ∈ (ds.getD j "").toList, '0' ≤ ch ∧ ch ≤ '5') ∧
      (ds.getD j "").toList.length ≤ w) :
    (∃ bd, parse (hd :: ds) = .ok bd ∧ bd.w = w ∧ bd.h = h) ∧
    parse (hd :: ds) = parse (hd :: ds.take h) :=
  ⟨parse_ok_build hd ds w h hh hw hh1 hds hvalid,
    parse_ignores_extra_lines hd ds w h hh⟩

theorem c7_witness :
    (∃ bd, parse ["4 3", "2102", "1154", "5135", "9999"] = .ok bd ∧
      bd.w = 4 ∧ bd.h = 3) ∧
    parse ["4 3", "2102", "1154", "5135", "9999"] =
      parse ("4 3" :: (["2102", "1154", "5135", "9999"] : List String).take 3) :=
  claim_C7_amended "4 3" ["2102", "1154", "5135", "9999"] 4 3
    (by decide) (by decide) (by decide) (by decide) (by decide)

/-- Claim C8: whatever the random draws, `random(w, h)` yields a board of the
requested dimensions whose every cell is a color in `{1, …, 5}` — never `0`
and never the sentinel `CELL_NB = 6`. -/
theorem claim_C8 (w h : Nat) (g : Nat → Nat) (hw : 0 < w) (hh : 0 < h) :
    (Board.random w h g).width = w ∧ (Board.random w h g).height = h ∧
    ∀ c ∈ (Board.random w h g).cells, (1 ≤ c ∧ c ≤ 5) ∧ c ≠ 0 ∧ c ≠ CELL_NB := by
  refine ⟨rfl, rfl, ?_⟩
  intro c hc
  rcases List.mem_map.mp hc with ⟨i, _, rfl⟩
  unfold uniformSample CELL_NB
  have hm : g i % (6 - 1) < 5 := Nat.mod_lt _ (by omega)
  refine ⟨⟨by omega, by omega⟩, by omega, ?_⟩
  show 1 + g i % (6 - 1) ≠ 6
  omega

theorem c8_witness :
    (Board.random 2 2 (fun i => i)).width = 2 ∧
    (Board.random 2 2 (fun i => i)).height = 2 ∧
    ∀ c ∈ (Board.random 2 2 (fun i => i)).cells, (1 ≤ c ∧ c ≤ 5) ∧ c ≠ 0 ∧ c ≠ CELL_NB :=
  claim_C8 2 2 (fun i => i) (by decide) (by decide)

/-- Claim C9: a successful erase removes exactly the returned count of
nonzero cells — the nonzero-cell count strictly decreases — and consequently
any run of successful erases performs at most `width * height` of them. -/
theorem claim_C9 :
    (∀ (b : Board) (x y : Nat), WF b → x < b.w → y < b.h →
      0 < (b.erase_component x y).2 →
      countNZ (b.erase_component x y).1.cells + (b.erase_component x y).2 =
        countNZ b.cells ∧
      countNZ (b.erase_component x y).1.cells < countNZ b.cells) ∧
    (∀ (b : Board) (ms : List (Nat × Nat)), WF b → SuccessRun b ms →
      ms.length ≤ b.w * b.h) := by
  constructor
  · intro b x y hw hx hy hpos
    have h := erase_countNZ b hw x y hx hy hpos
    exact ⟨h, by omega⟩
  · intro b ms hw hrun
    have h1 := successRun_le ms b hw hrun
    have h2 : countNZ b.cells ≤ b.w * b.h := by
      have h3 := countNZ_le_len b.cells
      rw [hw.2.2] at h3
      exact h3
    omega

theorem c9_witness :
    (countNZ ((Board.mk 4 3 [5, 1, 2, 1, 1, 1, 3, 5, 0, 5, 4, 2]).erase_component 1 1).1.cells +
        ((Board.mk 4 3 [5, 1, 2, 1, 1, 1, 3, 5, 0, 5, 4, 2]).erase_component 1 1).2 =
      countNZ (Board.mk 4 3 [5, 1, 2, 1, 1, 1, 3, 5, 0, 5, 4, 2]).cells ∧
      countNZ ((Board.mk 4 3 [5, 1, 2, 1, 1, 1, 3, 5, 0, 5, 4, 2]).erase_component 1 1).1.cells <
        countNZ (Board.mk 4 3 [5, 1, 2, 1, 1, 1, 3, 5, 0, 5, 4, 2]).cells) ∧
    ([((1 : Nat), (1 : Nat))] : List (Nat × Nat)).length ≤
      (Board.mk 4 3 [5, 1, 2, 1, 1, 1, 3, 5, 0, 5, 4, 2]).w *
        (Board.mk 4 3 [5, 1, 2, 1, 1, 1, 3, 5, 0, 5, 4, 2]).h :=
  ⟨claim_C9.1 (Board.mk 4 3 [5, 1, 2, 1, 1, 1, 3, 5, 0, 5, 4, 2]) 1 1
      (by decide) (by decide) (by decide) (by decide),
    claim_C9.2 (Board.mk 4 3 [5, 1, 2, 1, 1, 1, 3, 5, 0, 5, 4, 2]) [(1, 1)]
      (by decide) ⟨by decide, by decide, by decide, trivial⟩⟩

/-- Claim C10: a data line shorter than the declared width (all of its
characters valid digits) is accepted without error, and the cells of that row
beyond the line's end keep the initial value `0`. -/
theorem claim_C10 (hd : String) (ds : List String) (w h : Nat)
    (hh : parseHeader hd = .ok (w, h)) (hw : 0 < w) (hh1 : 0 < h)
    (hds : h ≤ ds.length)
    (hvalid : ∀ j, j < h → (∀ ch ∈ (ds.getD j "").toList, '0' ≤ ch ∧ ch ≤ '5') ∧
      (ds.getD j "").toList.length ≤ w) :
    ∃ bd, parse (hd :: ds) = .ok bd ∧
      ∀ r c, r < h → c < w → (ds.getD r "").toList.length ≤ c →
        bd.cellAt c r = 0 := by
  obtain ⟨bd, hok, hbw, hbh⟩ := parse_ok_build hd ds w h hh hw hh1 hds hvalid
  refine ⟨bd, hok, ?_⟩
  intro r c hr hc hlen
  have hcell := parse_cellAt (hd :: ds) bd hok r c (by rw [hbh]; exact hr)
    (by rw [hbw]; exact hc)
  have hdrop : ((hd :: ds).drop 1) = ds := rfl
  rw [hdrop] at hcell
  rw [hcell, if_neg (by omega)]

theorem c10_witness :
    ∃ bd, parse ["2 2", "1", ""] = .ok bd ∧
      ∀ r c, r < 2 → c < 2 → ((["1", ""] : List String).getD r "").toList.length ≤ c →
        bd.cellAt c r = 0 :=
  claim_C10 "2 2" ["1", ""] 2 2 (by decide) (by decide) (by decide) (by decide)
    (by decide)
